import Mathlib

/-!
Verification of the LL(k) parser-generator core (`parser_generator/generators.py`).

This file gives a shallow embedding of the generator pipeline:
symbol classification, the `table` property built from the BNF AST, the
FIRST_k engine (`_kfirst`, `kfirst`), the FOLLOW_k engine
(`_kfollow_permutations`, `_kfollow`, `_kfollow_fixpoint_solution`, `kfollow`),
the derivation search (`_matches`, `get_production_leading_to_terminal`),
the table assembler (`generate_ktable`) and the emitter (`generate_parser`).

Python-level conventions carried into the model:

* Symbols are strings: a terminal carries its double quotes (`"a"` is the
  five-character Python string `"a"` with quotes), epsilon is the literal
  string `ε`, everything else is a nonterminal name.
* Python sets/dicts are modelled as lists with first-insertion order and
  explicit deduplication, matching the deterministic within-process behavior.
* Unbounded recursion/iteration of the source is modelled with explicit fuel;
  the hard-coded 500 guards of the source are modelled literally.
* Python exceptions (`assert`, `KeyError`, the guard `Exception`s) are
  modelled with `Except`.

Helper modules of the repository that are not part of the provided source
(`firstset.py`, `followset.py`, `subproduction.py`, `grammar.py`,
`symbols.py`, `utils.py`) are modelled from the specification; each such
definition carries a doc comment starting with `Modelled from the spec:`.
-/

deriving instance DecidableEq for Except

namespace ParserGen

/-- A production `(lhs, rhs)`, exactly the pairs stored by the `table`
property of `LLTableGenerator`. -/
abbrev Production := String × List String

/-- A SubProduction: an ordered sequence of symbols (suffix of some rhs).
Modelled from the spec: "SubProduction — an ordered sequence of symbols". -/
abbrev SubProd := List String

/-- A lookahead value: the source mixes bare terminal strings and tuples of
terminals in the same container; we model the union with a sum. -/
abbrev Lookahead := String ⊕ List String

instance : BEq Lookahead := instBEqOfDecidableEq

/-- Modelled from the spec: `symbols.is_term` — a terminal literal carries
surrounding double quotes (mirrors `LLTableGenerator._is_term`, i.e. Python
`symbol.startswith('"') and symbol.endswith('"')`, stated on the character
list so that it evaluates in the kernel). -/
def is_term (s : String) : Bool :=
  (s.data.head? == some '"') && (s.data.getLast? == some '"')

/-- Modelled from the spec: `symbols.is_epsilon` — epsilon is the literal
single-character symbol `ε`. -/
def is_epsilon (s : String) : Bool :=
  s == "ε"

/-- Modelled from the spec: `symbols.is_nonterm` — a bare identifier:
neither a quoted terminal nor epsilon. -/
def is_nonterm (s : String) : Bool :=
  !is_term s && !is_epsilon s

/-- Insertion-ordered deduplication (Python dict-comprehension key order). -/
def dedup : List String → List String
  | [] => []
  | x :: xs => x :: (dedup xs).filter (fun y => y ≠ x)

/-- The nonterminals of the grammar: lhs of each production, in table order
(`LLTableGenerator.nonterminals`, deduplicated as Python dict keys are). -/
def keysOf (g : List Production) : List String :=
  dedup (g.map Prod.fst)

/-- `adjacency_matrix` lookup: the ordered right-hand sides of a nonterminal.
Total with default `[]`; the spec's well-formedness invariant ("every symbol
appearing on any rhs ... appears as some production's lhs") makes the Python
`KeyError` case unreachable for well-formed grammars. -/
def prodsOf (g : List Production) (s : String) : List (List String) :=
  (g.filter (fun p => p.1 == s)).map Prod.snd

/-- `_normalize_terminal_value`: `value.replace("\\", "")` removes every
backslash character (the pattern is the single backslash character). -/
def removeBackslashes : List Char → List Char
  | [] => []
  | c :: cs => if c = '\\' then removeBackslashes cs else c :: removeBackslashes cs

/-- `LLTableGenerator._normalize_terminal_value`. -/
def normalizeTerminalValue (v : String) : String :=
  ⟨removeBackslashes v.data⟩

/-- The AST children relevant to the `table` property: SYMBOL and TERMINAL
nodes (all other node kinds are skipped by the source loop). -/
inductive AstChild where
  | symbol (v : String)
  | terminal (v : String)
deriving DecidableEq

/-- How the `table` property renders one sequence child: SYMBOL values are
stored as-is, TERMINAL values via `_normalize_terminal_value`. -/
def renderChild : AstChild → String
  | .symbol v => v
  | .terminal v => normalizeTerminalValue v

/-- The `table` property: each (lhs, sequence-children) of the BNF AST
becomes a production whose rhs renders each child. -/
def tableModel (ast : List (String × List AstChild)) : List Production :=
  ast.map (fun r => (r.1, r.2.map renderChild))

/-! ### FIRST_k engine -/

/-- Modelled from the spec: `SubProduction.initial_terminals(k)` — split into
the longest terminal-only prefix (epsilon counts like a terminal of length 1,
per the `_kfirst` docstring) of length at most `k`, and the remaining suffix.
When `k ≤ 0` the whole terminal/epsilon prefix is collected, which realizes
the source comment "There will be more than k terms if k = 0 and symbol
contains ε". -/
def initialTerminalsAux (k : Int) : List String → List String → List String × List String
  | acc, [] => (acc.reverse, [])
  | acc, x :: rest =>
    if is_term x || is_epsilon x then
      if ((acc.length : Int) + 1) = k then ((x :: acc).reverse, rest)
      else initialTerminalsAux k (x :: acc) rest
    else (acc.reverse, x :: rest)

/-- Modelled from the spec: `SubProduction.initial_terminals(k)`. -/
def initialTerminals (sp : SubProd) (k : Int) : List String × List String :=
  initialTerminalsAux k [] sp

/-- FirstSet: a set of SubProductions.  Modelled from the spec:
"FirstSet — a set of SubProductions, each of length ≤ k".  The nullary
Python constructor `FirstSet()` is the empty set (it is the identity of the
`reduce(FirstSet.__or__, ..., FirstSet())` folds in the source). -/
abbrev FirstSet := List SubProd

/-- Modelled from the spec: the FirstSet Cartesian product
`A × B = {concat(a, b) : a ∈ A, b ∈ B}` (`FirstSet.__mul__`). -/
def fsMul (a b : FirstSet) : FirstSet :=
  (a.map (fun x => b.map (fun y => x ++ y))).flatten

/-- Python `range(1, k + 1)` over the Int-valued lookahead. -/
def intRange1 (k : Int) : List Int :=
  (List.range k.toNat).map (fun i : Nat => (i : Int) + 1)

/-- `LLTableGenerator._kfirst`.  The first argument of the sum is the
nonterminal-name case, the second the SubProduction case.  The result is the
list of yielded FirstSets.  `fuel` models the `gen_cache` recursion cutoff
(a re-entrant call on an in-flight key contributes nothing, per the spec's
back-edge rule); every recursive call decrements it.  `k` is an `Int`
because the source can recurse with `k - len(terms) < 0` when `k = 0` and
the subproduction has a leading terminal; such calls yield no members. -/
def kfirstF (g : List Production) : Nat → String ⊕ SubProd → Int → Bool → List FirstSet
  | 0, _, _, _ => []
  | fuel + 1, .inl s, k, au =>
    ((prodsOf g s).map (fun rhs => kfirstF g fuel (.inr rhs) k au)).flatten
  | fuel + 1, .inr sp, k, au =>
    match sp with
    | [] => [[]]
    | s0 :: sptail =>
      let tr := initialTerminals (s0 :: sptail) k
      let terms := tr.1
      let rest := tr.2
      if terms.length = 1 ∧ terms.headI = "ε" ∧ k = 0 then [[terms]]
      else if terms ≠ [] ∧ (terms.length : Int) = k ∧ (au ∨ rest = []) then [[terms]]
      else if rest = [] then []
      else if terms = [] then
        kfirstF g fuel (.inl s0) k au ++
          ((intRange1 k).map (fun i =>
            ((kfirstF g fuel (.inl s0) (k - i) false).map (fun ff =>
              (kfirstF g fuel (.inr sptail) i au).map (fun sf =>
                fsMul ff sf))).flatten)).flatten
      else
        let rests := (kfirstF g fuel (.inr rest) (k - (terms.length : Int)) au).flatten
        [rests.map (fun r => terms ++ r)]

/-- `SubProduction.normalized()`.  Modelled from the spec: normalization
drops the epsilon symbols from the sequence ("leading/interior ε symbols are
dropped during normalization"). -/
def normalizedSeq (sp : SubProd) : List String :=
  sp.filter (fun s => !is_epsilon s)

/-- The element added to `F[symbol]` by `kfirst` for one normalized
sequence: a length-1 sequence is added as a bare terminal string, a longer
one as a tuple, and the empty (all-epsilon) sequence as the string `ε`. -/
def encodeNorm (n : List String) : Lookahead :=
  match n with
  | [] => .inl "ε"
  | [x] => .inl x
  | xs => .inr xs

/-- Python `set.add` modelled on insertion-ordered lists. -/
def addLA (xs : List Lookahead) (x : Lookahead) : List Lookahead :=
  if x ∈ xs then xs else xs ++ [x]

/-- First-occurrence update of an association list (Python dict mutation). -/
def updateKey {α : Type} (l : List (String × α)) (key : String) (f : α → α) :
    List (String × α) :=
  match l with
  | [] => []
  | (s, v) :: rest =>
    if s = key then (s, f v) :: rest else (s, v) :: updateKey rest key f

/-- The members contributed to `F[sym]` at round `i` of `kfirst`: the union
(`reduce(FirstSet.__or__, self._kfirst(symbol, i), FirstSet())`) of all
yielded FirstSets. -/
def kfirstRound (g : List Production) (fuel : Nat) (sym : String) (i : Int) :
    List SubProd :=
  (kfirstF g fuel (.inl sym) i true).flatten

/-- The per-round additions of `kfirst` to one symbol's set: each member of
the round's union is normalized, encoded and added. -/
def kfirstAddRound (g : List Production) (fuel : Nat) (i : Nat) (sym : String)
    (las : List Lookahead) : List Lookahead :=
  (kfirstRound g fuel sym ((i : Int) + 1)).foldl
    (fun las sp => addLA las (encodeNorm (normalizedSeq sp))) las

/-- `LLTableGenerator.kfirst(k)`: iterate `i = 1..k`, and per nonterminal add
the encoded normalization of every member of every yielded FirstSet. -/
def kfirstModel (g : List Production) (fuel : Nat) (k : Nat) :
    List (String × List Lookahead) :=
  (List.range k).foldl
    (fun F i => (keysOf g).foldl
      (fun F sym => updateKey F sym (kfirstAddRound g fuel i sym)) F)
    ((keysOf g).map (fun s => (s, ([] : List Lookahead))))

/-! ### FOLLOW_k engine -/

/-- Python `range(0, n + 1)` over Int (empty when `n < 0`). -/
def intRange0 (n : Int) : List Int :=
  (List.range (n + 1).toNat).map (fun i : Nat => (i : Int))

/-- Python `set.add` for SubProduction sets, insertion ordered. -/
def addSeq (xs : List SubProd) (x : SubProd) : List SubProd :=
  if x ∈ xs then xs else xs ++ [x]

/-- Modelled from the spec: a FollowSet record.  `follow` is the reference
nonterminal whose FOLLOW the set depends on when partial; `completes` holds
resolved sequences of length exactly k; `additional` holds
resolved-but-short sequences; `awaiting` holds the pending prefixes of a
partial FollowSet (the spec's "(partial) contributions", which the fixpoint
extends with contributions of `FOLLOW(follow)`); `is_complete` and `changed`
are the fixpoint flags. -/
structure FollowSet where
  follow : String
  kparam : Int
  completes : List SubProd
  additional : List SubProd
  awaiting : List SubProd
  is_complete : Bool
  changed : Bool
deriving DecidableEq, Repr

/-- Modelled from the spec: `FollowSet.complete(seqs, lhs, k)` — a complete
FollowSet; members of length exactly k are `completes`, underflowing members
(a FIRST pull may fall short) are resolved-but-short `additional`. -/
def FollowSet.mkComplete (seqs : List SubProd) (lhs : String) (k : Int) : FollowSet :=
  { follow := lhs
    kparam := k
    completes := seqs.filter (fun s => (s.length : Int) == k)
    additional := seqs.filter (fun s => (s.length : Int) != k)
    awaiting := []
    is_complete := true
    changed := false }

/-- Modelled from the spec: `FollowSet.partial(seqs, lhs, k)` — a partial
FollowSet pointing at `lhs`, whose pending prefixes await FOLLOW(lhs).
(The Python method name is a Lean keyword, hence `mkPending`.) -/
def FollowSet.mkPending (seqs : List SubProd) (lhs : String) (k : Int) : FollowSet :=
  { follow := lhs
    kparam := k
    completes := []
    additional := []
    awaiting := seqs
    is_complete := false
    changed := false }

/-- Modelled from the spec: `FollowSet.append(other)` — for every pending
prefix and every contribution of `other` (completes and additional), the
concatenation truncated to k joins `completes` when it reaches length k and
`additional` otherwise; `changed` is set when new content arrived.  The
spec's completeness promotion rule ("promoting F to complete if its length
target is now reachable") is stated without a computable criterion and is
modelled conservatively as no promotion; this only costs idempotent
re-appends, which the `changed` flag already terminates. -/
def FollowSet.appendFS (self other : FollowSet) : FollowSet :=
  let news := (self.awaiting.map (fun p =>
    (other.completes ++ other.additional).map
      (fun s => (p ++ s).take self.kparam.toNat))).flatten
  let completes2 :=
    (news.filter (fun s => (s.length : Int) == self.kparam)).foldl addSeq self.completes
  let additional2 :=
    (news.filter (fun s => (s.length : Int) != self.kparam)).foldl addSeq self.additional
  { self with
      completes := completes2
      additional := additional2
      changed := self.changed || completes2.length != self.completes.length
        || additional2.length != self.additional.length }

/-- Modelled from the spec: `FollowSet.upgrade(a, b)` — join two FollowSets
with the same follow reference by unioning their contents. -/
def FollowSet.upgrade (a b : FollowSet) : FollowSet :=
  { a with
      completes := b.completes.foldl addSeq a.completes
      additional := b.additional.foldl addSeq a.additional
      awaiting := b.awaiting.foldl addSeq a.awaiting
      is_complete := a.is_complete && b.is_complete }

mutual

/-- Modelled from the spec: `Grammar.get_exact(symbol, n)` — all derivations
of `symbol` yielding exactly `n` terminals: a terminal contributes length 1,
epsilon length 0, and a nonterminal is expanded through its productions
under a recursion bound (fuel); unresolved branches are dropped silently. -/
def getExact (g : List Production) : Nat → String → Int → List SubProd
  | 0, _, _ => []
  | fuel + 1, sym, n =>
    if is_term sym then (if n = 1 then [[sym]] else [])
    else if is_epsilon sym then (if n = 0 then [[]] else [])
    else ((prodsOf g sym).map (fun rhs => getExactSeq g fuel rhs n)).flatten

/-- Modelled from the spec: derivations of a symbol sequence yielding
exactly `n` terminals, splitting the length over the sequence. -/
def getExactSeq (g : List Production) : Nat → List String → Int → List SubProd
  | 0, _, _ => []
  | _ + 1, [], n => if n = 0 then [[]] else []
  | fuel + 1, x :: rest, n =>
    ((intRange0 n).map (fun j =>
      ((getExact g fuel x j).map (fun d =>
        (getExactSeq g fuel rest (n - j)).map (fun e => d ++ e))).flatten)).flatten

end

/-- The `last_nonzero` scan of `_kfollow_resolve_permutation` (None when the
permutation is all zeros, matching the Python index -1 that no loop index
equals). -/
def lastNonzero (p : List Int) : Option Nat :=
  (List.range p.length).foldl (fun acc i => if p.getD i 0 ≠ 0 then some i else acc) none

/-- The per-position candidate lists of `_kfollow_resolve_permutation`: the
last non-zero, non-terminal position may pull from FIRST (skipping the bare
`⟨ε⟩`) when `allowFS` is set; every other position takes exact-length
derivations via `get_exact`. -/
def positionCandidates (g : List Production) (fuelFi : Nat) (rhs : List String)
    (base : Nat) (perm : List Int) (allowFS : Bool) : List (List SubProd) :=
  let lastNz := lastNonzero perm
  (List.range perm.length).map (fun i =>
    let symbol := rhs.getD (i + base) ""
    if some i = lastNz ∧ !is_term symbol ∧ allowFS then
      (kfirstF g fuelFi (.inl symbol) (perm.getD i 0) true).flatten.filter
        (fun sp => !(sp.length = 1 && sp.headI == "ε"))
    else
      getExact g fuelFi symbol (perm.getD i 0))

/-- The zip-up phase of `_kfollow_resolve_permutation`: all combinations of
one candidate per position, concatenated.  (The source realizes the product
with an explicit stack; the set of produced subproductions is the same.) -/
def cartProduct : List (List SubProd) → List SubProd
  | [] => [[]]
  | l :: ls => (l.map (fun d => (cartProduct ls).map (fun e => d ++ e))).flatten

/-- `_kfollow_resolve_permutation`: nothing is yielded when some position
has no candidate (the source returns early in that case). -/
def resolvePermutation (g : List Production) (fuelFi : Nat) (pr : Production)
    (base : Nat) (perm : List Int) (allowFS : Bool) : List SubProd :=
  let pls := positionCandidates g fuelFi pr.2 base perm allowFS
  if pls.any List.isEmpty then [] else cartProduct pls

/-- The `while queue` loop of `_kfollow_permutations` with its `guard = 500`.
The Python queue is a list used as a stack: `pop()` takes the last element,
`append` pushes at the end. -/
def kfollowPermLoop (g : List Production) (fuelFi : Nat) (pr : Production)
    (base : Nat) (k : Int) :
    Nat → List (List Int) → List FollowSet → Except String (List FollowSet)
  | _, [], acc => .ok acc
  | 0, _ :: _, _ => .error "Reached max iteration."
  | guard + 1, q :: qs, acc =>
    let p := (q :: qs).getLastD []
    let rest := (q :: qs).dropLast
    let s := p.foldl (· + ·) 0
    if s = k then
      kfollowPermLoop g fuelFi pr base k guard rest
        (acc ++ [FollowSet.mkComplete (resolvePermutation g fuelFi pr base p true) pr.1 k])
    else if pr.2.length - base ≤ p.length then
      kfollowPermLoop g fuelFi pr base k guard rest
        (acc ++ [FollowSet.mkPending (resolvePermutation g fuelFi pr base p false) pr.1 k])
    else
      kfollowPermLoop g fuelFi pr base k guard
        (rest ++ (intRange0 (k - s)).map (fun i => p ++ [i])) acc

/-- `LLTableGenerator._kfollow_permutations`. -/
def kfollowPermutations (g : List Production) (fuelFi : Nat) (pr : Production)
    (base : Nat) (k : Int) : Except String (List FollowSet) :=
  if base = pr.2.length then .ok [FollowSet.mkPending [[]] pr.1 k]
  else kfollowPermLoop g fuelFi pr base k 500 ((intRange0 k).map (fun i => [i])) []

/-- One iteration of the `_kfollow_permutations` queue loop as a state
transformer (identity on a drained queue), for stating the guard behavior
and the yield classification. -/
def permStep (g : List Production) (fuelFi : Nat) (pr : Production) (base : Nat)
    (k : Int) (st : List (List Int) × List FollowSet) :
    List (List Int) × List FollowSet :=
  match st with
  | ([], acc) => ([], acc)
  | (q :: qs, acc) =>
    let p := (q :: qs).getLastD []
    let rest := (q :: qs).dropLast
    let s := p.foldl (· + ·) 0
    if s = k then
      (rest, acc ++ [FollowSet.mkComplete (resolvePermutation g fuelFi pr base p true) pr.1 k])
    else if pr.2.length - base ≤ p.length then
      (rest, acc ++ [FollowSet.mkPending (resolvePermutation g fuelFi pr base p false) pr.1 k])
    else
      (rest ++ (intRange0 (k - s)).map (fun i => p ++ [i]), acc)

/-- n-fold iteration of a state transformer. -/
def iterFun {σ : Type} (f : σ → σ) : Nat → σ → σ
  | 0, s => s
  | n + 1, s => iterFun f n (f s)

/-- n-fold iteration of a fixpoint body that also reports a changed flag. -/
def iterStep {σ : Type} (step : σ → σ × Bool) : Nat → σ → σ
  | 0, s => s
  | n + 1, s => iterStep step n (step s).1

/-- The changed flag reported by iteration `m + 1` of a fixpoint body. -/
def chAt {σ : Type} (step : σ → σ × Bool) (s : σ) (m : Nat) : Bool :=
  (step (iterStep step m s)).2

/-- The classification `_kfollow_permutations` gives its yields: each comes
from an enumerated length-assignment tuple `p`, either saturated (sum
exactly k, complete FollowSet, FIRST pull allowed) or assigned-but-short
(sum below k, every remaining symbol assigned, partial FollowSet pointing
at the production's lhs, no FIRST pull). -/
def permClassified (g : List Production) (fuelFi : Nat) (pr : Production)
    (base : Nat) (k : Int) (fs : FollowSet) : Prop :=
  ∃ p : List Int,
    (p.foldl (· + ·) 0 = k
      ∧ fs = FollowSet.mkComplete (resolvePermutation g fuelFi pr base p true) pr.1 k)
    ∨ (p.foldl (· + ·) 0 < k ∧ pr.2.length - base ≤ p.length
      ∧ fs = FollowSet.mkPending (resolvePermutation g fuelFi pr base p false) pr.1 k)

/-- The occurrence positions of `symbol` in an rhs, shifted to the base
index just past the occurrence (`i + 1`). -/
def occurrenceBases (rhs : List String) (symbol : String) : List Nat :=
  ((List.range rhs.length).filter (fun i => rhs.getD i "" = symbol)).map (fun i => i + 1)

/-- `LLTableGenerator._kfollow`: for each production and each occurrence of
`symbol` on its rhs, the FollowSets of `_kfollow_permutations`. -/
def kfollowSym (g : List Production) (fuelFi : Nat) (symbol : String) (k : Int) :
    Except String (List FollowSet) :=
  g.foldlM (fun acc pr =>
    (occurrenceBases pr.2 symbol).foldlM (fun acc2 b => do
      let fss ← kfollowPermutations g fuelFi pr b k
      pure (acc2 ++ fss)) acc) []

/-- The fixpoint state: the `followset_lookup` dict. -/
abbrev FollowState := List (String × List FollowSet)

/-- Read the followset at list index `i` of symbol `sym`. -/
def getSlot (F : FollowState) (sym : String) (i : Nat) : Option FollowSet :=
  (F.lookup sym).bind (fun l => l.get? i)

/-- Replace the followset at list index `i` of symbol `sym` (Python mutates
the object in place; positions are stable). -/
def setSlot (F : FollowState) (sym : String) (i : Nat) (v : FollowSet) : FollowState :=
  updateKey F sym (fun l => l.set i v)

/-- The inner `for other in followset_lookup[followset.follow]` loop:
sequentially append every followset of the referenced symbol, re-reading
both objects from the evolving state (Python reference semantics). -/
def appendAllOthers (F : FollowState) (sym : String) (idx : Nat) : FollowState :=
  match getSlot F sym idx with
  | none => F
  | some fs0 =>
    (List.range ((F.lookup fs0.follow).getD []).length).foldl (fun F j =>
      match getSlot F sym idx, getSlot F fs0.follow j with
      | some fs, some o => setSlot F sym idx (fs.appendFS o)
      | _, _ => F) F

/-- One followset of one fixpoint pass: reset `changed`, skip when complete,
otherwise merge every followset of the referenced symbol. -/
def processSlot (F : FollowState) (sym : String) (idx : Nat) : FollowState :=
  match getSlot F sym idx with
  | none => F
  | some fs =>
    let F1 := setSlot F sym idx { fs with changed := false }
    if fs.is_complete then F1 else appendAllOthers F1 sym idx

/-- One symbol group of one fixpoint pass; returns the or-accumulated
`changed` of the group, read after the group was processed. -/
def processGroup (F : FollowState) (sym : String) : FollowState × Bool :=
  let F2 := (List.range ((F.lookup sym).getD []).length).foldl
    (fun F idx => processSlot F sym idx) F
  (F2, ((F2.lookup sym).getD []).any (·.changed))

/-- One full pass of the fixpoint loop body over all symbols. -/
def fixStep (F : FollowState) : FollowState × Bool :=
  (F.map Prod.fst).foldl (fun acc sym =>
    let pg := processGroup acc.1 sym
    (pg.1, acc.2 || pg.2)) (F, false)

/-- The `while changed` loop of `_kfollow_fixpoint_solution` with its
`iteration_guard = 500`: the body runs at most `guard` times, and entering
iteration `guard + 1` raises instead. -/
def loopFix {σ : Type} (step : σ → σ × Bool) : Nat → σ → Except String σ
  | 0, _ => .error "Reached iteration limit during fixpoint solution."
  | fuel + 1, s =>
    if (step s).2 then loopFix step fuel (step s).1 else .ok (step s).1

/-- `LLTableGenerator._kfollow_fixpoint_solution`. -/
def kfollowFixpointSolution (F : FollowState) : Except String FollowState :=
  loopFix fixStep 500 F

/-- One `follow`-group of the flattening of `kfollow`: reduce the group by
`upgrade`, and emit `additional ∪ completes`, single-symbol sequences as
bare strings and longer ones as tuples. -/
def flattenGroupStep (fss : List FollowSet) (acc : List Lookahead) (fo : String) :
    List Lookahead :=
  match fss.filter (fun fs => fs.follow == fo) with
  | [] => acc
  | h :: t =>
    ((t.foldl FollowSet.upgrade h).additional
        ++ (t.foldl FollowSet.upgrade h).completes).foldl (fun acc sp =>
      addLA acc (if sp.length = 1 then .inl sp.headI else .inr sp)) acc

/-- The flattening of one symbol entry in `kfollow`: group the followsets by
their `follow` reference and emit every group. -/
def followFlattenOne (fss : List FollowSet) : List Lookahead :=
  (dedup (fss.map (·.follow))).foldl (flattenGroupStep fss) []

/-- One entry of the defaultdict flattening: symbols without contributions
produce no entry. -/
def flattenStep (acc : List (String × List Lookahead))
    (p : String × List FollowSet) : List (String × List Lookahead) :=
  if (followFlattenOne p.2).isEmpty then acc
  else acc ++ [(p.1, followFlattenOne p.2)]

/-- The defaultdict flattening of `kfollow`. -/
def kfollowFlatten (F : FollowState) : List (String × List Lookahead) :=
  F.foldl flattenStep []

/-- One round `i` of `kfollow`: per nonterminal, append the FollowSets of
`_kfollow(symbol, i + 1)` to `F[symbol]`, then run the fixpoint. -/
def kfollowStepI (g : List Production) (fuelFi : Nat) (keys : List String)
    (F : FollowState) (i : Nat) : Except String FollowState :=
  match keys.foldlM (fun F sym =>
      (kfollowSym g fuelFi sym ((i : Int) + 1)).map
        (fun fss => updateKey F sym (fun l => l ++ fss))) F with
  | .error e => .error e
  | .ok F2 => kfollowFixpointSolution F2

/-- The seeded initial state of `kfollow`: every nonterminal mapped to the
empty list, and `F[start]` appended with the complete FollowSet `{⟨$⟩}`
constructed at k = 1. -/
def kfollowInit (g : List Production) (start : String) : FollowState :=
  updateKey ((keysOf g).map (fun s => (s, ([] : List FollowSet)))) start
    (fun l => l ++ [FollowSet.mkComplete [["$"]] start 1])

/-- `LLTableGenerator.kfollow(k)`: seed `F[start]` with the complete
FollowSet `{⟨$⟩}` built at k = 1, then per `i = 1..k` collect the
enumerated FollowSets and run the fixpoint, and finally flatten.  A start
symbol that is no production's lhs raises `KeyError` in the source
(`F[self.start].append` on a missing key). -/
def kfollowModel (g : List Production) (start : String) (k : Nat) (fuelFi : Nat) :
    Except String (List (String × List Lookahead)) :=
  if !(keysOf g).contains start then .error "KeyError: start"
  else
    match (List.range k).foldlM (kfollowStepI g fuelFi (keysOf g))
        (kfollowInit g start) with
    | .error e => .error e
    | .ok Ffinal => .ok (kfollowFlatten Ffinal)

/-! ### Derivation search: `_matches` -/

/-- The terminal-peeling loop at the head of each `_matches` iteration:
consume equal terminal symbols from `children`/`remaining` until a
nonterminal is reached, a mismatch occurs (`skip_this`), or one side runs
out.  Returns the sliced `children`, `remaining` and the `skip_this` flag. -/
def peelTerminals : List String → List String → List String × List String × Bool
  | c :: cs, r :: rs =>
    if is_nonterm c then (c :: cs, r :: rs, false)
    else if c ≠ r then (c :: cs, r :: rs, true)
    else peelTerminals cs rs
  | cs, rs => (cs, rs, false)

/-- One step of the `_matches` BFS over its deque.  The queue is stored with
the Python deque's right end (the `pop()` end) at the head; `appendleft`
therefore appends at the tail, giving the source's FIFO discipline.
Returns `none` when fuel runs out: the source has no search bound, so fuel
is a device of the model only.  The drained-queue outcome is Python's
implicit `None` return, which every caller treats as false. -/
def matchesQ (g : List Production) : Nat → List (List String × List String) → Option Bool
  | _, [] => some false
  | 0, _ :: _ => none
  | fuel + 1, (children, remaining) :: rest =>
    if children = [] ∨ remaining = [] then
      matchesQ g fuel rest
    else
      let (c, r, skipThis) := peelTerminals children remaining
      if skipThis then matchesQ g fuel rest
      else if r = [] then some true
      else
        match c with
        | [] => matchesQ g fuel rest
        | head :: tailc =>
          if !is_nonterm head then some false
          else
            let expansions := (prodsOf g head).map (fun p =>
              if is_epsilon (p.headI) then (tailc, r) else (p ++ tailc, r))
            matchesQ g fuel (rest ++ expansions)

/-- `LLTableGenerator._matches`. -/
def matchesF (g : List Production) (fuel : Nat) (rhs : List String) (terms : List String) :
    Option Bool :=
  matchesQ g fuel [(rhs, terms)]

/-- The tuple a lookahead is normalized to before matching
(`remaining = (term,) if isinstance(term, str) else term`). -/
def laToList : Lookahead → List String
  | .inl s => [s]
  | .inr t => t

/-- `get_production_leading_to_terminal`: all productions of `nonterm` whose
rhs matches the lookahead.  A `none` (fuel-exhausted) match is treated as
no match; on the source this corresponds to a diverging search. -/
def prodsLeadingTo (g : List Production) (fuel : Nat) (nonterm : String)
    (term : Lookahead) : List Production :=
  ((prodsOf g nonterm).filter
    (fun rhs => matchesF g fuel rhs (laToList term) == some true)).map
    (fun rhs => (nonterm, rhs))

/-! ### Table assembler: `generate_ktable` -/

/-- The exceptions `generate_ktable` can raise: the ambiguity `assert`
(naming the nonterminal, lookahead and candidate list) and Python
`KeyError`s on `follow[nonterm]` / `table[nonterm]`. -/
inductive KtabError where
  | ambiguous (n : String) (t : Lookahead) (cands : List Production)
  | keyErr (msg : String)
deriving DecidableEq, Repr

/-- One row of the generated table: lookahead → production, in Python dict
insertion order (overwrites keep the original position). -/
abbrev Row := List (Lookahead × Production)

/-- The generated LL(k) table. -/
abbrev Table := List (String × Row)

instance : DecidableEq Table := List.hasDecEq

/-- Dict write on a row: an existing key keeps its position, a new key is
appended. -/
def updateRow (row : Row) (t : Lookahead) (p : Production) : Row :=
  match row with
  | [] => [(t, p)]
  | (t0, p0) :: rest =>
    if t0 = t then (t0, p) :: rest else (t0, p0) :: updateRow rest t p

/-- `table[nonterm][term] = production`. -/
def cellSet (tbl : Table) (n : String) (t : Lookahead) (p : Production) : Table :=
  updateKey tbl n (fun row => updateRow row t p)

/-- A record of one cell write of `generate_ktable`, for stating the
overwrite behavior: the cell coordinates, the previous binding of the cell
(if any), the production written, and whether the write came from the
ε-branch (which consults FOLLOW and is guarded by `term2 not in table`). -/
structure WriteEvent where
  n : String
  t : Lookahead
  prev : Option Production
  new : Production
  viaEps : Bool
deriving DecidableEq, Repr

/-- The ε-branch loop of `generate_ktable`: for each lookahead of
`follow[nonterm]`, write the cell only when it is not yet occupied
(`if term2 not in table[nonterm]`), logging the write.  A missing table
key is the Python `KeyError`. -/
def processEpsTerms (nonterm : String) (production : Production) :
    List Lookahead → Table × List WriteEvent →
    Except KtabError (Table × List WriteEvent)
  | [], st => .ok st
  | t2 :: ts, st =>
    match st.1.lookup nonterm with
    | none => .error (.keyErr ("table: " ++ nonterm))
    | some row =>
      if (row.lookup t2).isNone then
        processEpsTerms nonterm production ts
          (cellSet st.1 nonterm t2 production,
            st.2 ++ [⟨nonterm, t2, none, production, true⟩])
      else processEpsTerms nonterm production ts st

/-- The body of `generate_ktable` for a single `(nonterm, term)` pair of the
firstset: run `get_production_leading_to_terminal`, fail the assert unless
exactly one candidate was found, then either fill FOLLOW-indexed cells (for
ε, skipping occupied cells) or write the cell unconditionally.  Every write
is logged with the previous binding of the cell. -/
def processPair (g : List Production) (fuelM : Nat)
    (follow : List (String × List Lookahead)) (st : Table × List WriteEvent)
    (nonterm : String) (term : Lookahead) :
    Except KtabError (Table × List WriteEvent) :=
  if (prodsLeadingTo g fuelM nonterm term).length = 1 then
    if term = Sum.inl "ε" then
      match follow.lookup nonterm with
      | none => .error (.keyErr ("follow: " ++ nonterm))
      | some f2s =>
        processEpsTerms nonterm (prodsLeadingTo g fuelM nonterm term).headI f2s st
    else
      match st.1.lookup nonterm with
      | none => .error (.keyErr ("table: " ++ nonterm))
      | some row =>
        .ok (cellSet st.1 nonterm term (prodsLeadingTo g fuelM nonterm term).headI,
          st.2 ++ [⟨nonterm, term, row.lookup term,
            (prodsLeadingTo g fuelM nonterm term).headI, false⟩])
  else .error (.ambiguous nonterm term (prodsLeadingTo g fuelM nonterm term))

/-- The inner `for term in terms` loop of `generate_ktable`. -/
def processTerms (g : List Production) (fuelM : Nat)
    (follow : List (String × List Lookahead)) (nonterm : String) :
    List Lookahead → Table × List WriteEvent →
    Except KtabError (Table × List WriteEvent)
  | [], st => .ok st
  | t :: ts, st =>
    match processPair g fuelM follow st nonterm t with
    | .error e => .error e
    | .ok st2 => processTerms g fuelM follow nonterm ts st2

/-- The outer `for nonterm, terms in first.items()` loop of
`generate_ktable`. -/
def processFirst (g : List Production) (fuelM : Nat)
    (follow : List (String × List Lookahead)) :
    List (String × List Lookahead) → Table × List WriteEvent →
    Except KtabError (Table × List WriteEvent)
  | [], st => .ok st
  | p :: rest, st =>
    match processTerms g fuelM follow p.1 p.2 st with
    | .error e => .error e
    | .ok st2 => processFirst g fuelM follow rest st2

/-- `generate_ktable` instrumented with the write log.  The `k` argument of
the source method is unused by its body. -/
def generateKtableEvents (g : List Production) (fuelM : Nat)
    (first follow : List (String × List Lookahead)) (_k : Nat) :
    Except KtabError (Table × List WriteEvent) :=
  processFirst g fuelM follow first ((keysOf g).map (fun n => (n, ([] : Row))), [])

/-- The `(nonterm, lookahead)` key of a write event. -/
def evKey (e : WriteEvent) : String × Lookahead := (e.n, e.t)

/-- The keys of the non-ε-branch writes in a log. -/
def nonEpsKeys (evs : List WriteEvent) : List (String × Lookahead) :=
  (evs.filter (fun e => !e.viaEps)).map evKey

/-- `LLTableGenerator.generate_ktable`. -/
def generateKtable (g : List Production) (fuelM : Nat)
    (first follow : List (String × List Lookahead)) (k : Nat) :
    Except KtabError Table :=
  (generateKtableEvents g fuelM first follow k).map Prod.fst

/-! ### Emitter: `generate_parser` -/

/-- Python `repr` on the identifier-like strings the emitter reprs
(no quotes or escapes in them): wrap in single quotes. -/
def pyRepr (s : String) : String :=
  "\x27" ++ s ++ "\x27"

/-- `normalize_for_table` on a string: quoted terminals drop their quotes,
anything else is repr-ed. -/
def normalizeForTableStr (s : String) : String :=
  if is_term s then (s.drop 1).dropRight 1 else pyRepr s

/-- `normalize_for_table` (strings and lookahead tuples). -/
def normalizeForTable : Lookahead → String
  | .inl s => normalizeForTableStr s
  | .inr t => "(" ++ String.intercalate ", " (t.map normalizeForTableStr) ++ ")"

/-- The `PARSE_EXCEPTION` template string of the source. -/
def parseExceptionStr : String :=
  "\nclass ParseException(Exception):\n    pass\n"

/-- The `PARSE` template up to the `start_symbol` format hole, after
`strip("\n")` and with the `.format` brace escapes resolved. -/
def parseTemplatePre : List String :=
  ["    def _fill_buff(self, token_buff):",
   "        # type: (Tuple[BuffToken, ...]) -> Tuple[BuffToken, ...]",
   "        new_buff = token_buff",
   "        while len(new_buff) < self.k:",
   "            try:",
   "                new_buff += (next(self.tokens),)",
   "            except StopIteration:",
   "                if None not in token_buff:",
   "                    new_buff += (None,)",
   "                break",
   "        return new_buff",
   "",
   "    def _behead(self, buff):",
   "        # type: (Tuple[T, ...]) -> Tuple[Optional[T], Tuple[T, ...]]",
   "        head = None",
   "        if buff:",
   "            head = buff[0]",
   "        return head, tuple([x for x in buff[1:]])",
   "",
   "    def _get_token_type_buff(self, token_buff):",
   "        # type: (Tuple[BuffToken, ...]) -> Tuple[BuffTokenType, ...]",
   "        return tuple([x.token_type if x else \"$\" for x in token_buff])",
   "",
   "    def parse(self):",
   "        # type: () -> Node",
   "        root = Node(node_type="]

/-- The `PARSE` template after the `start_symbol` format hole. -/
def parseTemplatePost : List String :=
  [")",
   "        stack = deque([root])",
   "        token_buff = self._fill_buff(tuple())",
   "        token_type_buff = self._get_token_type_buff(token_buff)",
   "        while stack:",
   "            curr = stack.popleft()",
   "            if curr.node_type == \"ε\":",
   "                continue",
   "",
   "            # We're at a terminal node; we should be able to consume",
   "            # from the token stream.",
   "            if isinstance(curr.node_type, TokenType):",
   "                if (",
   "                    len(token_type_buff) > 0",
   "                    and curr.node_type == token_type_buff[0]",
   "                ):",
   "                    curr.value, token_buff = self._behead(token_buff)",
   "                    token_buff = self._fill_buff(token_buff)",
   "                    token_type_buff = self._get_token_type_buff(token_buff)",
   "                    continue",
   "                else:",
   "                    raise ParseException(",
   "                        \"Expected token type \x7b\x7d, but got \x7b\x7d\".format(",
   "                            token_type_buff, curr.node_type",
   "                        )",
   "                    )",
   "            if curr.node_type not in self.table:",
   "                raise ParseException(",
   "                    \"Expected \x7b\x7d to be in grammar, but was not.\".format(",
   "                        curr,",
   "                    )",
   "                )",
   "",
   "            # Drop off the end of the token lookahead to see if a shorter",
   "            # version is in the table.",
   "            index = tuple(token_type_buff)",
   "            if len(index) == 1:",
   "                index = index[0]",
   "            while index and index not in self.table[curr.node_type]:",
   "                if isinstance(index, str):",
   "                    index = None",
   "                    break",
   "                index = index[:-1]",
   "                if len(index) == 1:",
   "                    index = index[0]",
   "            if not index:",
   "                raise ParseException(",
   "                    \"Expected \x7b\x7d to be in a production \"",
   "                    \"of \x7b\x7d, but was not.\".format(token_buff, curr)",
   "                )",
   "            lhs, rhs = self.table[curr.node_type][index]",
   "",
   "            # `extendleft` appends in reverse order,",
   "            # so we have to reverse before extending.",
   "            # Otherwise, right-recursive productions will",
   "            # never finish parsing.",
   "            children = [Node(x) for x in rhs]  # type: ignore",
   "            curr.children = children",
   "            stack.extendleft(children[::-1])",
   "        return root"]

/-- `PARSE.strip("\n").format(start_symbol=repr(generator.start))`. -/
def parseTemplate (startRepr : String) : String :=
  String.intercalate "\n" parseTemplatePre ++ startRepr
    ++ String.intercalate "\n" parseTemplatePost

/-- The table rows rendered by the emitter loop of `generate_parser`. -/
def tableLines (tbl : Table) : List String :=
  tbl.foldl (fun acc row =>
    acc ++ ["        " ++ normalizeForTableStr row.1 ++ ": \x7b"]
      ++ (row.2.foldl (fun acc2 cell =>
        acc2 ++ ["            " ++ normalizeForTable cell.1 ++ ": ("]
          ++ ["                " ++ normalizeForTableStr cell.2.1 ++ ","]
          ++ ["                ["]
          ++ cell.2.2.map (fun v => "                    " ++ normalizeForTableStr v ++ ",")
          ++ ["                ]"]
          ++ ["            ),"]) [])
      ++ ["        \x7d,"]) []

/-- The fixed part of the `parser` list before the table rows, minus the
timestamp head line. -/
def headerTail (importsOrBlank : String) : List String :=
  ["",
   "from collections import deque",
   "from typing import Dict, List, Iterator, Optional, Tuple, TypeVar, Union",
   importsOrBlank,
   parseExceptionStr,
   "",
   "",
   "T = TypeVar(\"T\")",
   "",
   "",
   "# Types which allow for sentinal values None and \"$\"",
   "BuffToken = Optional[Token]",
   "BuffTokenType = Union[TokenType, str]",
   "class Parser(object):",
   "    table = \x7b"]

/-- The fixed lines appended after the table rows. -/
def footerLines (k : Nat) (start : String) : List String :=
  ["    \x7d",
   "",
   "    def __init__(self, tokens):",
   "        # type: (Iterator[Token]) -> None",
   "        self.tokens = tokens",
   "        self.k = " ++ toString k,
   "",
   parseTemplate (pyRepr start)]

/-- `"\n".join(parser)`. -/
def joinLines : List String → String
  | [] => ""
  | [x] => x
  | x :: y :: rest => x ++ "\n" ++ joinLines (y :: rest)

/-- `imports_or_blank`: Python truthiness — both `None` and the empty
string produce the blank. -/
def importsOrBlank : Option String → String
  | none => ""
  | some i => if i = "" then "" else "\n" ++ i ++ "\n"

/-- The error rendering `generate_parser` surfaces for a `generate_ktable`
exception (the assert message or the KeyError). -/
def ktabErrorMsg : KtabError → String
  | .ambiguous n t cands =>
    "Ambiguous grammar.  Firstset contains multiple productions for "
      ++ n ++ " when encountering " ++ normalizeForTable t ++ ": "
      ++ String.intercalate ", " (cands.map (fun c => pyRepr c.1)) ++ "."
  | .keyErr m => "KeyError: " ++ m

/-- All lines of the emitted source except the timestamp head line. -/
def parserRestLines (tbl : Table) (imports : Option String) (k : Nat)
    (start : String) : List String :=
  headerTail (importsOrBlank imports) ++ tableLines tbl ++ footerLines k start

/-- The emitted source minus its timestamp head line, as produced by the
pipeline (parse table → FIRST → FOLLOW → ktable → render). -/
def generateParserBody (g : List Production) (start : String)
    (imports : Option String) (k : Nat) (fuelFi fuelM : Nat) :
    Except String String :=
  match kfollowModel g start k fuelFi with
  | .error e => .error e
  | .ok follow =>
    match generateKtable g fuelM (kfirstModel g fuelFi k) follow k with
    | .error e => .error (ktabErrorMsg e)
    | .ok tbl => .ok (joinLines (parserRestLines tbl imports k start))

/-- Whether an `Except` is a success (used to state that a concrete pipeline
run produced output). -/
def isOkE {ε α : Type} : Except ε α → Bool
  | .ok _ => true
  | .error _ => false

/-- `generate_parser(grammar, imports, k)`.  The BNF parse result (the
production table and start symbol) is the input, the BNF parser itself being
an external collaborator; `now` is the `datetime.datetime.now()` reading,
made explicit because the source interpolates it into the first emitted
line. -/
def generateParser (g : List Production) (start : String)
    (imports : Option String) (k : Nat) (fuelFi fuelM : Nat) (now : String) :
    Except String String :=
  match kfollowModel g start k fuelFi with
  | .error e => .error e
  | .ok follow =>
    match generateKtable g fuelM (kfirstModel g fuelFi k) follow k with
    | .error e => .error (ktabErrorMsg e)
    | .ok tbl =>
      .ok (joinLines (("# Generated on " ++ now)
        :: parserRestLines tbl imports k start))

/-- Every row of the evolving table has duplicate-free lookahead keys. -/
def rowsNodup (tbl : Table) : Prop :=
  ∀ r ∈ tbl, ((r.2.map Prod.fst) : List Lookahead).Nodup

/-- How one followset object may change during the fixpoint: its follow
reference and completeness flag are stable and its completes only grow. -/
def fsEvolves (a b : FollowSet) : Prop :=
  b.follow = a.follow ∧ b.is_complete = a.is_complete
    ∧ ∀ s ∈ a.completes, s ∈ b.completes

/-- `fsEvolves` lifted to optional followset lists of equal shape. -/
def optEvolves : Option (List FollowSet) → Option (List FollowSet) → Prop
  | none, none => True
  | some a, some b => List.Forall₂ fsEvolves a b
  | _, _ => False

/-- How the whole fixpoint state may change: per symbol, the followset
lists evolve pointwise (no list is created, dropped or resized). -/
def stEvolves (F G : FollowState) : Prop :=
  ∀ sym : String, optEvolves (F.lookup sym) (G.lookup sym)

/-- The `$`-seed invariant of `kfollow`: some followset of the start
symbol's list is complete, refers to the start symbol and holds `⟨$⟩` among
its completes. -/
def dollarInv (start : String) (F : FollowState) : Prop :=
  ∃ fss, F.lookup start = some fss
    ∧ ∃ fs ∈ fss, fs.follow = start ∧ fs.is_complete = true
      ∧ ["$"] ∈ fs.completes

/-! ### Concrete grammars used to instantiate the claims -/

/-- The single-production grammar `<S> ::= "a"`, as the `table` property
represents it. -/
def gTriv : List Production := [("S", ["\"a\""])]

/-- The grammar `<S> ::= <A>`, `<A> ::= "a" | ε`. -/
def gNull : List Production := [("S", ["A"]), ("A", ["\"a\""]), ("A", ["ε"])]

/-- The grammar `<S> ::= <A> "b" | ε`, `<A> ::= ε | "b"` — a classic
FIRST/FOLLOW conflict at `A` on lookahead `"b"`. -/
def gConflict : List Production :=
  [("S", ["A", "\"b\""]), ("S", ["ε"]), ("A", ["ε"]), ("A", ["\"b\""])]

/-- The grammar `<A> ::= ε | "a"`, `<B> ::= "b"`. -/
def gPad : List Production := [("A", ["ε"]), ("A", ["\"a\""]), ("B", ["\"b\""])]

/-- The left-recursive grammar `<A> ::= <A> "a"`. -/
def gLR : List Production := [("A", ["A", "\"a\""])]

/-! ## Theorems -/

/-! ### C10: terminal escape stripping -/

theorem removeBackslashes_eq_filter (l : List Char) :
    removeBackslashes l = l.filter (· != '\\') := by
  induction l with
  | nil => rfl
  | cons c cs ih =>
    by_cases h : c = '\\' <;>
      simp [removeBackslashes, h, ih, List.filter_cons]

theorem removeBackslashes_append (a b : List Char) :
    removeBackslashes (a ++ b) = removeBackslashes a ++ removeBackslashes b := by
  simp [removeBackslashes_eq_filter]

/-- C10: the stored terminal for every TERMINAL node of the grammar AST is
the node's value with every backslash removed (indiscriminately, lone
backslashes included), the result never contains a backslash, and the
surrounding double-quote markers are preserved at this stage; the `table`
property stores exactly these rendered values. -/
theorem c10_terminal_backslash_stripping (v : String) :
    (normalizeTerminalValue v).data = v.data.filter (· != '\\')
    ∧ (∀ c ∈ (normalizeTerminalValue v).data, c ≠ '\\')
    ∧ (∀ mid : List Char, v.data = '"' :: mid ++ ['"'] →
        (normalizeTerminalValue v).data = '"' :: removeBackslashes mid ++ ['"'])
    ∧ (∀ (ast : List (String × List AstChild)) (lhs : String) (cs : List AstChild),
        (lhs, cs) ∈ ast → (lhs, cs.map renderChild) ∈ tableModel ast)
    ∧ renderChild (AstChild.terminal v) = normalizeTerminalValue v := by
  refine ⟨?_, ?_, ?_, ?_, rfl⟩
  · simp [normalizeTerminalValue, removeBackslashes_eq_filter]
  · intro c hc
    simp only [normalizeTerminalValue, removeBackslashes_eq_filter] at hc
    have := List.of_mem_filter hc
    simpa using this
  · intro mid hv
    simp only [normalizeTerminalValue, hv, removeBackslashes_append]
    simp [removeBackslashes]
  · intro ast lhs cs h
    exact List.mem_map_of_mem (fun r => (r.1, r.2.map renderChild)) h

/-- Witness for C10 at the concrete AST terminal value `"a\b"`. -/
theorem c10_witness :
    (normalizeTerminalValue "\"a\\b\"").data
      = '"' :: removeBackslashes ['a', '\\', 'b'] ++ ['"'] :=
  (c10_terminal_backslash_stripping "\"a\\b\"").2.2.1 ['a', '\\', 'b'] (by decide)

/-! ### C4: lengths of `_kfirst` members without underflow -/

theorem normalizedSeq_append (a b : SubProd) :
    normalizedSeq (a ++ b) = normalizedSeq a ++ normalizedSeq b := by
  simp [normalizedSeq]

theorem length_normalizedSeq_le (m : SubProd) :
    (normalizedSeq m).length ≤ m.length :=
  List.length_filter_le _ _

theorem mem_fsMul {m : SubProd} {a b : FirstSet} (h : m ∈ fsMul a b) :
    ∃ x ∈ a, ∃ y ∈ b, m = x ++ y := by
  simp only [fsMul, List.mem_flatten, List.mem_map] at h
  obtain ⟨l, ⟨x, hx, rfl⟩, hm⟩ := h
  obtain ⟨y, hy, rfl⟩ := List.mem_map.mp hm
  exact ⟨x, hx, y, hy, rfl⟩

/-- C4 (amended): for every symbol or SubProduction `x`, every `k` and any
fuel, each member `m` of each FirstSet yielded by
`_kfirst(x, k, allow_underflow := false)` satisfies the two-sided length
bound: its ε-free (normalized) length is at most `k` and its raw length
(ε counting as 1, as the source's docstring states) is at least `k`.  In
particular an ε-free member has length exactly `k`.  The original claim's
sole-exception clause for the singleton `⟨ε⟩` is accurate as far as it
goes — `⟨ε⟩` is indeed yielded for nullable `x` at `k = 1`, consistent
with the bound (raw length 1 admits only `k ≤ 1`) — but it is not the only
exception: longer ε-padded members such as `⟨ε, b⟩` are yielded as well,
so "length exactly k except the singleton ⟨ε⟩" fails in both the raw and
the normalized reading. -/
theorem c4_kfirst_no_underflow_length_bounds (g : List Production)
    (fuel : Nat) (x : String ⊕ SubProd) (k : Int) (fs : FirstSet) (m : SubProd)
    (hfs : fs ∈ kfirstF g fuel x k false) (hm : m ∈ fs) :
    ((normalizedSeq m).length : Int) ≤ k ∧ k ≤ (m.length : Int) := by
  induction fuel generalizing x k fs m with
  | zero => simp [kfirstF] at hfs
  | succ fuel ih =>
    match x with
    | .inl s =>
      simp only [kfirstF, List.mem_flatten, List.mem_map] at hfs
      obtain ⟨l, ⟨rhs, hrhs, rfl⟩, hfsl⟩ := hfs
      exact ih (.inr rhs) k fs m hfsl hm
    | .inr [] =>
      simp only [kfirstF, List.mem_singleton] at hfs
      subst hfs
      simp at hm
    | .inr (s0 :: tl) =>
      simp only [kfirstF] at hfs
      split_ifs at hfs with h1 h2 h3 h4
      · -- the singleton ⟨ε⟩ yielded at k = 0
        simp only [List.mem_singleton] at hfs
        subst hfs
        simp only [List.mem_singleton] at hm
        subst hm
        obtain ⟨hlen, hhead, hk⟩ := h1
        obtain ⟨a, ha⟩ := List.length_eq_one.mp hlen
        rw [ha] at hhead
        simp only [List.headI] at hhead
        subst hhead
        rw [ha, hk]
        constructor
        · simp [normalizedSeq, is_epsilon]
        · simp
      · -- an exact-length terminal prefix
        simp only [List.mem_singleton] at hfs
        subst hfs
        simp only [List.mem_singleton] at hm
        subst hm
        obtain ⟨-, hlen, -⟩ := h2
        have hnle := length_normalizedSeq_le (initialTerminals (s0 :: tl) k).1
        exact ⟨by omega, by omega⟩
      · -- no rest and not enough terminals: nothing is yielded
        simp at hfs
      · -- leading nonterminal
        rcases List.mem_append.mp hfs with hA | hB
        · exact ih (.inl s0) k fs m hA hm
        · simp only [List.mem_flatten, List.mem_map] at hB
          obtain ⟨l1, ⟨i, hi, rfl⟩, hl1⟩ := hB
          simp only [List.mem_flatten, List.mem_map] at hl1
          obtain ⟨l2, ⟨ff, hff, rfl⟩, hfs2⟩ := hl1
          obtain ⟨sf, hsf, rfl⟩ := List.mem_map.mp hfs2
          obtain ⟨a, ha, b, hb, rfl⟩ := mem_fsMul hm
          obtain ⟨ha1, ha2⟩ := ih (.inl s0) (k - i) ff a hff ha
          obtain ⟨hb1, hb2⟩ := ih (.inr tl) i sf b hsf hb
          rw [normalizedSeq_append]
          constructor
          · push_cast [List.length_append]
            omega
          · push_cast [List.length_append]
            omega
      · -- a terminal prefix followed by the recursive rest
        simp only [List.mem_singleton] at hfs
        subst hfs
        obtain ⟨r, hr, rfl⟩ := List.mem_map.mp hm
        simp only [List.mem_flatten] at hr
        obtain ⟨fs2, hfs2, hrfs⟩ := hr
        obtain ⟨h1', h2'⟩ := ih (.inr (initialTerminals (s0 :: tl) k).2)
          (k - ((initialTerminals (s0 :: tl) k).1.length : Int)) fs2 r hfs2 hrfs
        have hfle : (normalizedSeq (initialTerminals (s0 :: tl) k).1).length
            ≤ (initialTerminals (s0 :: tl) k).1.length :=
          length_normalizedSeq_le _
        rw [normalizedSeq_append]
        constructor
        · push_cast [List.length_append]
          omega
        · push_cast [List.length_append]
          omega

/-- C4 counterexample: on the grammar `<A> ::= ε | "a"`, `<B> ::= "b"`, the
call `_kfirst(⟨A, B⟩, k, allow_underflow=false)` yields the member
`⟨ε, "b"⟩`.  At k = 1 its length is 2 ≠ k and it is not the singleton `⟨ε⟩`
(first conjunct: raw length, ε counting as 1, the source docstring's
convention); at k = 2 its ε-free length is 1 ≠ k (second conjunct: the
normalized reading).  Either way the claimed "length exactly k with the
sole exception of ⟨ε⟩" fails. -/
theorem c4_counterexample_padded_member :
    (¬ ∀ fs ∈ kfirstF gPad 30 (.inr ["A", "B"]) 1 false, ∀ m ∈ fs,
        m.length = 1 ∨ m = ["ε"])
    ∧ (¬ ∀ fs ∈ kfirstF gPad 30 (.inr ["A", "B"]) 2 false, ∀ m ∈ fs,
        (normalizedSeq m).length = 2 ∨ m = ["ε"]) := by
  constructor <;> decide

/-- Witness for C4 at the member `⟨ε, "b"⟩` of
`_kfirst(⟨A, B⟩, 1, false)` on the counterexample grammar. -/
theorem c4_witness :
    ((normalizedSeq ["ε", "\"b\""]).length : Int) ≤ 1
      ∧ (1 : Int) ≤ ((["ε", "\"b\""] : SubProd).length : Int) :=
  c4_kfirst_no_underflow_length_bounds gPad 30 (.inr ["A", "B"]) 1
    [["ε", "\"b\""]] ["ε", "\"b\""] (by decide) (by decide)

/-! ### C9: `kfirst` aggregation and normalization -/

theorem mem_addLA {y x : Lookahead} {xs : List Lookahead} :
    y ∈ addLA xs x ↔ y ∈ xs ∨ y = x := by
  unfold addLA
  split_ifs with h
  · constructor
    · exact Or.inl
    · rintro (hy | rfl)
      · exact hy
      · exact h
  · simp [List.mem_append]

theorem mem_foldl_addLA (f : SubProd → Lookahead) (seqs : List SubProd) :
    ∀ (las : List Lookahead) (y : Lookahead),
      y ∈ seqs.foldl (fun las sp => addLA las (f sp)) las
        ↔ y ∈ las ∨ ∃ sp ∈ seqs, y = f sp := by
  induction seqs with
  | nil => simp
  | cons s rest ih =>
    intro las y
    simp only [List.foldl_cons, ih, mem_addLA, List.mem_cons]
    constructor
    · rintro ((hy | rfl) | ⟨sp, hsp, rfl⟩)
      · exact Or.inl hy
      · exact Or.inr ⟨s, Or.inl rfl, rfl⟩
      · exact Or.inr ⟨sp, Or.inr hsp, rfl⟩
    · rintro (hy | ⟨sp, (rfl | hsp), rfl⟩)
      · exact Or.inl (Or.inl hy)
      · exact Or.inl (Or.inr rfl)
      · exact Or.inr ⟨sp, hsp, rfl⟩

theorem lookup_updateKey_self {α : Type} (F : List (String × α)) (s : String)
    (f : α → α) :
    (updateKey F s f).lookup s = (F.lookup s).map f := by
  induction F with
  | nil => rfl
  | cons p rest ih =>
    obtain ⟨s0, v⟩ := p
    by_cases h : s0 = s
    · subst h
      simp [updateKey, List.lookup]
    · have h' : (s == s0) = false := by
        simp [beq_iff_eq]
        exact fun hh => h hh.symm
      simp [updateKey, h, List.lookup, h', ih]

theorem lookup_updateKey_ne {α : Type} (F : List (String × α)) (s s' : String)
    (f : α → α) (h : s' ≠ s) :
    (updateKey F s f).lookup s' = F.lookup s' := by
  induction F with
  | nil => rfl
  | cons p rest ih =>
    obtain ⟨s0, v⟩ := p
    by_cases h0 : s0 = s
    · subst h0
      have h' : (s' == s0) = false := by simpa [beq_iff_eq] using h
      simp [updateKey, List.lookup, h']
    · simp only [updateKey, if_neg h0]
      by_cases h1 : s' = s0
      · subst h1
        simp [List.lookup]
      · have h1' : (s' == s0) = false := by simpa [beq_iff_eq] using h1
        simp [List.lookup, h1', ih]

theorem lookup_foldl_updateKey_notmem {α : Type} (fn : String → α → α)
    (keys : List String) (F : List (String × α)) (sym : String)
    (h : sym ∉ keys) :
    (keys.foldl (fun F s => updateKey F s (fn s)) F).lookup sym = F.lookup sym := by
  induction keys generalizing F with
  | nil => rfl
  | cons k0 rest ih =>
    simp only [List.foldl_cons]
    rw [ih _ (fun hr => h (List.mem_cons_of_mem _ hr))]
    exact lookup_updateKey_ne F k0 sym (fn k0) (fun he => h (he ▸ List.mem_cons_self _ _))

theorem lookup_foldl_updateKey_mem {α : Type} (fn : String → α → α)
    (keys : List String) (F : List (String × α)) (sym : String)
    (h : sym ∈ keys) (hnd : keys.Nodup) :
    (keys.foldl (fun F s => updateKey F s (fn s)) F).lookup sym
      = (F.lookup sym).map (fn sym) := by
  induction keys generalizing F with
  | nil => simp at h
  | cons k0 rest ih =>
    simp only [List.foldl_cons]
    by_cases h0 : sym = k0
    · subst h0
      have hnotin : sym ∉ rest := (List.nodup_cons.mp hnd).1
      rw [lookup_foldl_updateKey_notmem fn rest _ sym hnotin]
      exact lookup_updateKey_self F sym (fn sym)
    · have hmem : sym ∈ rest := (List.mem_cons.mp h).resolve_left h0
      rw [ih _ hmem (List.nodup_cons.mp hnd).2]
      rw [lookup_updateKey_ne F k0 sym (fn k0) h0]

theorem dedup_nodup (l : List String) : (dedup l).Nodup := by
  induction l with
  | nil => exact List.nodup_nil
  | cons x xs ih =>
    simp only [dedup, List.nodup_cons]
    constructor
    · intro hx
      have := List.of_mem_filter hx
      simp at this
    · exact List.Nodup.filter _ ih

theorem mem_dedup {x : String} {l : List String} : x ∈ dedup l ↔ x ∈ l := by
  induction l with
  | nil => simp [dedup]
  | cons y ys ih =>
    simp only [dedup, List.mem_cons]
    constructor
    · rintro (rfl | hx)
      · exact Or.inl rfl
      · exact Or.inr (ih.mp (List.mem_of_mem_filter hx))
    · rintro (rfl | hx)
      · exact Or.inl rfl
      · by_cases he : x = y
        · exact Or.inl he
        · exact Or.inr (List.mem_filter.mpr ⟨ih.mpr hx, by simpa using he⟩)

theorem lookup_map_const {α : Type} (keys : List String) (c : α) (sym : String)
    (h : sym ∈ keys) :
    ((keys.map (fun s => (s, c))).lookup sym) = some c := by
  induction keys with
  | nil => simp at h
  | cons k0 rest ih =>
    by_cases h0 : sym = k0
    · subst h0
      simp [List.lookup]
    · have h0' : (sym == k0) = false := by simpa [beq_iff_eq] using h0
      simp only [List.map_cons, List.lookup, h0']
      exact ih ((List.mem_cons.mp h).resolve_left h0)

theorem kfirstModel_def (g : List Production) (fuel k : Nat) :
    kfirstModel g fuel k
      = (List.range k).foldl
          (fun F i => (keysOf g).foldl
            (fun F sym => updateKey F sym (kfirstAddRound g fuel i sym)) F)
          ((keysOf g).map (fun s => (s, ([] : List Lookahead)))) := rfl

theorem kfirstModel_lookup (g : List Production) (fuel : Nat) (sym : String)
    (hsym : sym ∈ keysOf g) :
    ∀ k : Nat, ∃ L, (kfirstModel g fuel k).lookup sym = some L
      ∧ ∀ y, (y ∈ L ↔ ∃ i : Nat, i < k
          ∧ ∃ sp ∈ kfirstRound g fuel sym ((i : Int) + 1),
              y = encodeNorm (normalizedSeq sp)) := by
  intro k
  induction k with
  | zero =>
    refine ⟨[], ?_, by simp⟩
    rw [kfirstModel_def]
    exact lookup_map_const (keysOf g) [] sym hsym
  | succ k ih =>
    obtain ⟨L, hL, hmemL⟩ := ih
    refine ⟨kfirstAddRound g fuel k sym L, ?_, ?_⟩
    · rw [kfirstModel_def, List.range_succ, List.foldl_append, List.foldl_cons,
        List.foldl_nil, lookup_foldl_updateKey_mem _ _ _ _ hsym (dedup_nodup _)]
      rw [kfirstModel_def] at hL
      rw [hL]
      rfl
    · intro y
      unfold kfirstAddRound
      rw [mem_foldl_addLA, hmemL]
      constructor
      · rintro (⟨i, hi, sp, hsp, rfl⟩ | ⟨sp, hsp, rfl⟩)
        · exact ⟨i, Nat.lt_succ_of_lt hi, sp, hsp, rfl⟩
        · exact ⟨k, Nat.lt_succ_self k, sp, hsp, rfl⟩
      · rintro ⟨i, hi, sp, hsp, rfl⟩
        rcases Nat.lt_succ_iff_lt_or_eq.mp hi with hik | rfl
        · exact Or.inl ⟨i, hik, sp, hsp, rfl⟩
        · exact Or.inr ⟨sp, hsp, rfl⟩

/-- C9: for every nonterminal `N`, each element of `kfirst(k)[N]` comes from
normalizing some member of a yielded FirstSet (at some round `i + 1 ≤ k`),
encoded by the three-case rule of the source: a normalized sequence of
length 1 is added as the bare terminal string, a longer one as a tuple, and
an entirely-ε (empty after normalization) sequence as the string `ε` —
and conversely every normalized yielded member appears. -/
theorem c9_kfirst_normalization_characterization (g : List Production)
    (fuel k : Nat) (sym : String) (e : Lookahead) (hsym : sym ∈ keysOf g) :
    e ∈ ((kfirstModel g fuel k).lookup sym).getD []
      ↔ ∃ i : Nat, i < k ∧ ∃ sp ∈ kfirstRound g fuel sym ((i : Int) + 1),
          e = encodeNorm (normalizedSeq sp) := by
  obtain ⟨L, hL, hmem⟩ := kfirstModel_lookup g fuel sym hsym k
  rw [hL]
  exact hmem e

/-- Witness for C9: on `<S> ::= <A>`, `<A> ::= "a" | ε`, the element `ε` of
`kfirst(1)[S]` is the normalization of the yielded all-ε member. -/
theorem c9_witness :
    Sum.inl "ε" ∈ ((kfirstModel gNull 30 1).lookup "S").getD []
      ↔ ∃ i : Nat, i < 1 ∧ ∃ sp ∈ kfirstRound gNull 30 "S" ((i : Int) + 1),
          Sum.inl "ε" = encodeNorm (normalizedSeq sp) :=
  c9_kfirst_normalization_characterization gNull 30 1 "S" (Sum.inl "ε") (by decide)

/-! ### C8: the 500-iteration guards -/

theorem chAt_shift {σ : Type} (step : σ → σ × Bool) (s : σ) (m : Nat) :
    chAt step s (m + 1) = chAt step (step s).1 m := rfl

theorem loopFix_error_iff {σ : Type} (step : σ → σ × Bool) :
    ∀ (g : Nat) (s : σ),
      loopFix step g s = .error "Reached iteration limit during fixpoint solution."
        ↔ ∀ m < g, chAt step s m = true := by
  intro g
  induction g with
  | zero => intro s; simp [loopFix]
  | succ g ih =>
    intro s
    simp only [loopFix]
    by_cases hc : (step s).2 = true
    · rw [if_pos hc, ih (step s).1]
      constructor
      · intro hall m hm
        cases m with
        | zero => exact hc
        | succ m => exact hall m (by omega)
      · intro hall m hm
        exact hall (m + 1) (by omega)
    · rw [if_neg hc]
      constructor
      · intro h
        exact absurd h (by simp)
      · intro hall
        exact absurd (hall 0 (by omega)) hc

theorem loopFix_ok {σ : Type} (step : σ → σ × Bool) :
    ∀ (g : Nat) (s R : σ), loopFix step g s = .ok R →
      ∃ n, n < g ∧ chAt step s n = false ∧ R = iterStep step (n + 1) s := by
  intro g
  induction g with
  | zero => intro s R h; simp [loopFix] at h
  | succ g ih =>
    intro s R h
    simp only [loopFix] at h
    by_cases hc : (step s).2 = true
    · rw [if_pos hc] at h
      obtain ⟨n, hn, hcn, hR⟩ := ih (step s).1 R h
      exact ⟨n + 1, by omega, hcn, hR⟩
    · rw [if_neg hc] at h
      refine ⟨0, by omega, by simpa [chAt, iterStep] using hc, ?_⟩
      simp only [Except.ok.injEq] at h
      rw [← h]
      rfl

theorem permStep_empty (g : List Production) (fuelFi : Nat) (pr : Production)
    (base : Nat) (k : Int) (acc : List FollowSet) :
    permStep g fuelFi pr base k ([], acc) = ([], acc) := rfl

theorem iterFun_permStep_empty (g : List Production) (fuelFi : Nat)
    (pr : Production) (base : Nat) (k : Int) (acc : List FollowSet) :
    ∀ m, iterFun (permStep g fuelFi pr base k) m ([], acc) = ([], acc) := by
  intro m
  induction m with
  | zero => rfl
  | succ m ih => simpa [iterFun, permStep_empty] using ih

theorem kfollowPermLoop_succ (g : List Production) (fuelFi : Nat)
    (pr : Production) (base : Nat) (k : Int) (guard : Nat) (q : List Int)
    (qs : List (List Int)) (acc : List FollowSet) :
    kfollowPermLoop g fuelFi pr base k (guard + 1) (q :: qs) acc
      = kfollowPermLoop g fuelFi pr base k guard
          (permStep g fuelFi pr base k (q :: qs, acc)).1
          (permStep g fuelFi pr base k (q :: qs, acc)).2 := by
  simp only [kfollowPermLoop, permStep]
  split_ifs <;> rfl

theorem kfollowPermLoop_error_iff (g : List Production) (fuelFi : Nat)
    (pr : Production) (base : Nat) (k : Int) :
    ∀ (guard : Nat) (q : List (List Int)) (acc : List FollowSet),
      kfollowPermLoop g fuelFi pr base k guard q acc = .error "Reached max iteration."
        ↔ (iterFun (permStep g fuelFi pr base k) guard (q, acc)).1 ≠ [] := by
  intro guard
  induction guard with
  | zero =>
    intro q acc
    match q with
    | [] => simp [kfollowPermLoop, iterFun]
    | q0 :: qs => simp [kfollowPermLoop, iterFun]
  | succ guard ih =>
    intro q acc
    match q with
    | [] =>
      rw [show kfollowPermLoop g fuelFi pr base k (guard + 1) [] acc = .ok acc from rfl]
      rw [show (iterFun (permStep g fuelFi pr base k) (guard + 1) ([], acc))
          = ([], acc) from iterFun_permStep_empty g fuelFi pr base k acc (guard + 1)]
      simp
    | q0 :: qs =>
      rw [kfollowPermLoop_succ]
      rw [ih]
      rfl

theorem kfollowPermLoop_ok (g : List Production) (fuelFi : Nat)
    (pr : Production) (base : Nat) (k : Int) :
    ∀ (guard : Nat) (q : List (List Int)) (acc res : List FollowSet),
      kfollowPermLoop g fuelFi pr base k guard q acc = .ok res →
        ∃ n, n ≤ guard ∧ (iterFun (permStep g fuelFi pr base k) n (q, acc)).1 = []
          ∧ res = (iterFun (permStep g fuelFi pr base k) n (q, acc)).2 := by
  intro guard
  induction guard with
  | zero =>
    intro q acc res h
    match q with
    | [] =>
      refine ⟨0, le_refl 0, rfl, ?_⟩
      simpa [kfollowPermLoop] using h.symm
    | q0 :: qs => simp [kfollowPermLoop] at h
  | succ guard ih =>
    intro q acc res h
    match q with
    | [] =>
      refine ⟨0, by omega, rfl, ?_⟩
      simpa [kfollowPermLoop] using h.symm
    | q0 :: qs =>
      rw [kfollowPermLoop_succ] at h
      obtain ⟨n, hn, hq, hres⟩ := ih _ _ res h
      exact ⟨n + 1, by omega, hq, hres⟩

/-- C8: both bounded loops run their body at most 500 times.  For the
FOLLOW fixpoint (`_kfollow_fixpoint_solution`): the guard error is raised
exactly when all 500 body passes report a change, and a run that converges
within the bound returns the iterated state with no error.  For the
permutation enumerator (`_kfollow_permutations` with its `guard = 500`):
the guard error is raised exactly when the queue is still non-empty after
500 processed permutations, and a successful run drained the queue within
the bound. -/
theorem c8_iteration_guards_500 :
    (∀ F : FollowState,
      (kfollowFixpointSolution F
          = .error "Reached iteration limit during fixpoint solution."
        ↔ ∀ m < 500, chAt fixStep F m = true)
      ∧ (∀ R, kfollowFixpointSolution F = .ok R →
          ∃ n, n < 500 ∧ chAt fixStep F n = false ∧ R = iterStep fixStep (n + 1) F))
    ∧ (∀ (g : List Production) (fuelFi : Nat) (pr : Production) (base : Nat)
        (k : Int), base ≠ pr.2.length →
      (kfollowPermutations g fuelFi pr base k = .error "Reached max iteration."
        ↔ (iterFun (permStep g fuelFi pr base k) 500
            ((intRange0 k).map (fun i => [i]), [])).1 ≠ [])
      ∧ (∀ res, kfollowPermutations g fuelFi pr base k = .ok res →
          ∃ n, n ≤ 500
            ∧ (iterFun (permStep g fuelFi pr base k) n
                ((intRange0 k).map (fun i => [i]), [])).1 = []
            ∧ res = (iterFun (permStep g fuelFi pr base k) n
                ((intRange0 k).map (fun i => [i]), [])).2)) := by
  constructor
  · intro F
    constructor
    · exact loopFix_error_iff fixStep 500 F
    · intro R h
      exact loopFix_ok fixStep 500 F R h
  · intro g fuelFi pr base k hbase
    constructor
    · rw [show kfollowPermutations g fuelFi pr base k
          = kfollowPermLoop g fuelFi pr base k 500
              ((intRange0 k).map (fun i => [i])) [] from by
        simp [kfollowPermutations, hbase]]
      exact kfollowPermLoop_error_iff g fuelFi pr base k 500 _ []
    · intro res h
      rw [show kfollowPermutations g fuelFi pr base k
          = kfollowPermLoop g fuelFi pr base k 500
              ((intRange0 k).map (fun i => [i])) [] from by
        simp [kfollowPermutations, hbase]] at h
      exact kfollowPermLoop_ok g fuelFi pr base k 500 _ [] res h

/-- Witness for C8 on the conflict grammar's production `S ::= A "b"` at
`base = 1`, `k = 1`: the permutation enumerator finishes under the guard. -/
theorem c8_witness :
    ∃ res, kfollowPermutations gConflict 30 ("S", ["A", "\"b\""]) 1 1 = .ok res
      ∧ ∃ n, n ≤ 500
        ∧ (iterFun (permStep gConflict 30 ("S", ["A", "\"b\""]) 1 1) n
            ((intRange0 1).map (fun i => [i]), [])).1 = []
        ∧ res = (iterFun (permStep gConflict 30 ("S", ["A", "\"b\""]) 1 1) n
            ((intRange0 1).map (fun i => [i]), [])).2 := by
  refine ⟨_, rfl, ?_⟩
  exact (c8_iteration_guards_500.2 gConflict 30 ("S", ["A", "\"b\""]) 1 1
    (by decide)).2 _ rfl

/-! ### C6: `$` is in FOLLOW(start) -/

theorem fsEvolves_refl (a : FollowSet) : fsEvolves a a :=
  ⟨rfl, rfl, fun _ h => h⟩

theorem fsEvolves_trans {a b c : FollowSet} (h1 : fsEvolves a b)
    (h2 : fsEvolves b c) : fsEvolves a c :=
  ⟨h2.1.trans h1.1, h2.2.1.trans h1.2.1, fun s hs => h2.2.2 s (h1.2.2 s hs)⟩

theorem forall2_fsEvolves_refl (l : List FollowSet) :
    List.Forall₂ fsEvolves l l := by
  induction l with
  | nil => exact List.Forall₂.nil
  | cons a l ih => exact List.Forall₂.cons (fsEvolves_refl a) ih

theorem forall2_fsEvolves_trans : ∀ {a b c : List FollowSet},
    List.Forall₂ fsEvolves a b → List.Forall₂ fsEvolves b c →
    List.Forall₂ fsEvolves a c := by
  intro a b c h1
  induction h1 generalizing c with
  | nil =>
    intro h2
    cases h2
    exact .nil
  | cons hab h1' ih =>
    intro h2
    cases h2 with
    | cons hbc h2' => exact .cons (fsEvolves_trans hab hbc) (ih h2')

theorem optEvolves_refl (o : Option (List FollowSet)) : optEvolves o o := by
  cases o with
  | none => trivial
  | some l => exact forall2_fsEvolves_refl l

theorem optEvolves_trans {a b c : Option (List FollowSet)}
    (h1 : optEvolves a b) (h2 : optEvolves b c) : optEvolves a c := by
  cases a with
  | none =>
    cases b with
    | none => exact h2
    | some lb => exact absurd h1 (by simp [optEvolves])
  | some la =>
    cases b with
    | none => exact absurd h1 (by simp [optEvolves])
    | some lb =>
      cases c with
      | none => exact absurd h2 (by simp [optEvolves])
      | some lc => exact forall2_fsEvolves_trans h1 h2

theorem stEvolves_refl (F : FollowState) : stEvolves F F :=
  fun _ => optEvolves_refl _

theorem stEvolves_trans {F G H : FollowState} (h1 : stEvolves F G)
    (h2 : stEvolves G H) : stEvolves F H :=
  fun sym => optEvolves_trans (h1 sym) (h2 sym)

theorem forall2_mem_transport {R : FollowSet → FollowSet → Prop} :
    ∀ {l1 l2 : List FollowSet}, List.Forall₂ R l1 l2 →
      ∀ fs ∈ l1, ∃ fs' ∈ l2, R fs fs' := by
  intro l1 l2 h
  induction h with
  | nil => intro fs hfs; simp at hfs
  | cons hr _ ih =>
    intro fs hfs
    rcases hfs with _ | ⟨_, hfs⟩
    · exact ⟨_, List.mem_cons_self _ _, hr⟩
    · obtain ⟨fs', hm, hr'⟩ := ih fs hfs
      exact ⟨fs', List.mem_cons_of_mem _ hm, hr'⟩

theorem dollarInv_of_evolves {start : String} {F G : FollowState}
    (hInv : dollarInv start F) (hev : stEvolves F G) : dollarInv start G := by
  obtain ⟨fss, hlook, fs, hfs, hfo, hco, hdo⟩ := hInv
  have h := hev start
  rw [hlook] at h
  cases hG : G.lookup start with
  | none => rw [hG] at h; exact absurd h (by simp [optEvolves])
  | some fss' =>
    rw [hG] at h
    obtain ⟨fs', hm, hr⟩ := forall2_mem_transport h fs hfs
    exact ⟨fss', hG, fs', hm, hr.1.trans hfo, hr.2.1.trans hco, hr.2.2 _ hdo⟩

theorem mem_addSeq {y x : SubProd} {xs : List SubProd} :
    y ∈ addSeq xs x ↔ y ∈ xs ∨ y = x := by
  unfold addSeq
  split_ifs with h
  · constructor
    · exact Or.inl
    · rintro (hy | rfl)
      · exact hy
      · exact h
  · simp [List.mem_append]

theorem mem_foldl_addSeq_left {y : SubProd} :
    ∀ (l : List SubProd) (acc : List SubProd), y ∈ acc → y ∈ l.foldl addSeq acc := by
  intro l
  induction l with
  | nil => intro acc h; exact h
  | cons x t ih =>
    intro acc h
    exact ih (addSeq acc x) (mem_addSeq.mpr (Or.inl h))

theorem mem_foldl_addSeq_right {y : SubProd} :
    ∀ (l : List SubProd) (acc : List SubProd), y ∈ l → y ∈ l.foldl addSeq acc := by
  intro l
  induction l with
  | nil => intro acc h; simp at h
  | cons x t ih =>
    intro acc h
    rcases List.mem_cons.mp h with rfl | h
    · exact mem_foldl_addSeq_left t _ (mem_addSeq.mpr (Or.inr rfl))
    · exact ih _ h

theorem appendFS_evolves (fs o : FollowSet) : fsEvolves fs (fs.appendFS o) := by
  refine ⟨rfl, rfl, fun s hs => ?_⟩
  exact mem_foldl_addSeq_left _ _ hs

theorem changedReset_evolves (fs : FollowSet) :
    fsEvolves fs { fs with changed := false } :=
  ⟨rfl, rfl, fun _ h => h⟩

theorem forall2_set {l : List FollowSet} :
    ∀ {idx : Nat} {fs v : FollowSet}, l.get? idx = some fs → fsEvolves fs v →
      List.Forall₂ fsEvolves l (l.set idx v) := by
  induction l with
  | nil => intro idx fs v h _; simp at h
  | cons a t ih =>
    intro idx fs v h hev
    cases idx with
    | zero =>
      simp only [List.get?] at h
      injection h with h
      subst h
      exact .cons hev (forall2_fsEvolves_refl t)
    | succ n =>
      simp only [List.get?] at h
      exact .cons (fsEvolves_refl a) (ih h hev)

theorem stEvolves_setSlot {F : FollowState} {sym : String} {idx : Nat}
    {fs v : FollowSet} (hget : getSlot F sym idx = some fs)
    (hev : fsEvolves fs v) : stEvolves F (setSlot F sym idx v) := by
  intro sym'
  unfold setSlot
  by_cases h : sym' = sym
  · subst h
    rw [lookup_updateKey_self]
    cases hl : F.lookup sym' with
    | none => trivial
    | some l =>
      show optEvolves (some l) (some (l.set idx v))
      unfold getSlot at hget
      rw [hl] at hget
      simp only [Option.bind] at hget
      exact forall2_set hget hev
  · rw [lookup_updateKey_ne _ _ _ _ h]
    exact optEvolves_refl _

theorem stEvolves_foldl {α : Type} (step : FollowState → α → FollowState)
    (hstep : ∀ F a, stEvolves F (step F a)) :
    ∀ (l : List α) (F : FollowState), stEvolves F (l.foldl step F) := by
  intro l
  induction l with
  | nil => intro F; exact stEvolves_refl F
  | cons a t ih => intro F; exact stEvolves_trans (hstep F a) (ih (step F a))

theorem stEvolves_appendAllOthers (F : FollowState) (sym : String) (idx : Nat) :
    stEvolves F (appendAllOthers F sym idx) := by
  unfold appendAllOthers
  cases hg : getSlot F sym idx with
  | none => exact stEvolves_refl F
  | some fs0 =>
    refine stEvolves_foldl _ ?_ _ F
    intro F' j
    cases hg1 : getSlot F' sym idx with
    | none => exact stEvolves_refl F'
    | some fs =>
      cases hg2 : getSlot F' fs0.follow j with
      | none => exact stEvolves_refl F'
      | some o => exact stEvolves_setSlot hg1 (appendFS_evolves fs o)

theorem stEvolves_processSlot (F : FollowState) (sym : String) (idx : Nat) :
    stEvolves F (processSlot F sym idx) := by
  unfold processSlot
  cases hg : getSlot F sym idx with
  | none => exact stEvolves_refl F
  | some fs =>
    have h1 : stEvolves F (setSlot F sym idx { fs with changed := false }) :=
      stEvolves_setSlot hg (changedReset_evolves fs)
    dsimp only
    split_ifs with hc
    · exact h1
    · exact stEvolves_trans h1 (stEvolves_appendAllOthers _ sym idx)

theorem stEvolves_processGroup (F : FollowState) (sym : String) :
    stEvolves F (processGroup F sym).1 := by
  unfold processGroup
  exact stEvolves_foldl _ (fun F' idx => stEvolves_processSlot F' sym idx) _ F

theorem stEvolves_fixStep (F : FollowState) : stEvolves F (fixStep F).1 := by
  unfold fixStep
  generalize (F.map Prod.fst) = keys
  suffices h : ∀ (ks : List String) (acc : FollowState × Bool),
      stEvolves acc.1 ((ks.foldl (fun acc sym =>
        ((processGroup acc.1 sym).1, acc.2 || (processGroup acc.1 sym).2)) acc).1) by
    exact h keys (F, false)
  intro ks
  induction ks with
  | nil => intro acc; exact stEvolves_refl acc.1
  | cons s t ih =>
    intro acc
    exact stEvolves_trans (stEvolves_processGroup acc.1 s)
      (ih ((processGroup acc.1 s).1, acc.2 || (processGroup acc.1 s).2))

theorem stEvolves_iterStep (n : Nat) :
    ∀ F : FollowState, stEvolves F (iterStep fixStep n F) := by
  induction n with
  | zero => intro F; exact stEvolves_refl F
  | succ n ih =>
    intro F
    exact stEvolves_trans (stEvolves_fixStep F) (ih (fixStep F).1)

theorem dollarInv_fixpoint {start : String} {F R : FollowState}
    (hInv : dollarInv start F) (h : kfollowFixpointSolution F = .ok R) :
    dollarInv start R := by
  obtain ⟨n, -, -, hR⟩ := loopFix_ok fixStep 500 F R h
  rw [hR]
  exact dollarInv_of_evolves hInv (stEvolves_iterStep (n + 1) F)

theorem foldlM_except_nil {σ α : Type} (step : σ → α → Except String σ) (s : σ) :
    ([] : List α).foldlM step s = Except.ok s := rfl

theorem foldlM_except_cons {σ α : Type} (step : σ → α → Except String σ)
    (a : α) (t : List α) (s : σ) :
    (a :: t).foldlM step s = (step s a).bind (fun s2 => t.foldlM step s2) := rfl

theorem foldlM_except_inv {σ α : Type} (P : σ → Prop)
    (step : σ → α → Except String σ)
    (hstep : ∀ s a s2, P s → step s a = .ok s2 → P s2) :
    ∀ (l : List α) (s s2 : σ), P s → l.foldlM step s = .ok s2 → P s2 := by
  intro l
  induction l with
  | nil =>
    intro s s2 hP h
    rw [foldlM_except_nil] at h
    injection h with h
    exact h ▸ hP
  | cons a t ih =>
    intro s s2 hP h
    rw [foldlM_except_cons] at h
    cases hs : step s a with
    | error e => rw [hs] at h; exact Except.noConfusion h
    | ok s3 =>
      rw [hs] at h
      exact ih s3 s2 (hstep s a s3 hP hs) h

theorem mem_of_contains {s : String} : ∀ {l : List String}, l.contains s = true → s ∈ l := by
  intro l
  induction l with
  | nil => intro h; cases h
  | cons a t ih =>
    intro h
    by_cases he : s = a
    · exact List.mem_cons.mpr (Or.inl he)
    · have hb : (s == a) = false := by
        cases hq : (s == a)
        · rfl
        · exact absurd (beq_iff_eq.mp hq) he
      have ht : t.contains s = true := by
        simpa [List.contains, List.elem, hb] using h
      exact List.mem_cons_of_mem a (ih ht)

theorem dollarInv_updateKey_append {start : String} {F : FollowState}
    (sym : String) (fss2 : List FollowSet) (hP : dollarInv start F) :
    dollarInv start (updateKey F sym (fun l => l ++ fss2)) := by
  obtain ⟨fss, hlook, fs, hfs, hrest⟩ := hP
  by_cases h : start = sym
  · subst h
    refine ⟨fss ++ fss2, ?_, fs, List.mem_append_left _ hfs, hrest⟩
    rw [lookup_updateKey_self, hlook]
    rfl
  · refine ⟨fss, ?_, fs, hfs, hrest⟩
    rw [lookup_updateKey_ne _ _ _ _ h]
    exact hlook

theorem dollarInv_kfollowInit (g : List Production) (start : String)
    (hst : start ∈ keysOf g) : dollarInv start (kfollowInit g start) := by
  refine ⟨[] ++ [FollowSet.mkComplete [["$"]] start 1], ?_,
    FollowSet.mkComplete [["$"]] start 1, by simp, rfl, rfl, ?_⟩
  · unfold kfollowInit
    rw [lookup_updateKey_self, lookup_map_const (keysOf g) ([] : List FollowSet) start hst]
    rfl
  · show ["$"] ∈ ([["$"]] : List SubProd).filter (fun s => ((s.length : Int) == (1 : Int)))
    decide

theorem dollarInv_kfollowStepI {g : List Production} {fuelFi : Nat} {start : String}
    (keys : List String) (F : FollowState) (i : Nat) (F2 : FollowState)
    (hP : dollarInv start F) (h : kfollowStepI g fuelFi keys F i = .ok F2) :
    dollarInv start F2 := by
  unfold kfollowStepI at h
  split at h
  · exact Except.noConfusion h
  · rename_i Fm hin
    have hPm : dollarInv start Fm := by
      refine foldlM_except_inv (dollarInv start) _ ?_ keys F Fm hP hin
      intro s sym s2 hPs hs
      cases hks : kfollowSym g fuelFi sym ((i : Int) + 1) with
      | error e => rw [hks] at hs; exact Except.noConfusion hs
      | ok fss =>
        rw [hks] at hs
        dsimp only [Except.map] at hs
        injection hs with hs
        exact hs ▸ dollarInv_updateKey_append sym fss hPs
    exact dollarInv_fixpoint hPm h

theorem upgrade_completes_mem :
    ∀ (l : List FollowSet) (a : FollowSet) (x : SubProd),
      (x ∈ a.completes ∨ ∃ b ∈ l, x ∈ b.completes) →
      x ∈ (l.foldl FollowSet.upgrade a).completes := by
  intro l
  induction l with
  | nil =>
    rintro a x (h | ⟨b, hb, -⟩)
    · exact h
    · cases hb
  | cons b t ih =>
    rintro a x (h | ⟨c, hc, hx⟩)
    · refine ih _ x (Or.inl ?_)
      show x ∈ b.completes.foldl addSeq a.completes
      exact mem_foldl_addSeq_left _ _ h
    · rcases List.mem_cons.mp hc with rfl | hc
      · refine ih _ x (Or.inl ?_)
        show x ∈ c.completes.foldl addSeq a.completes
        exact mem_foldl_addSeq_right _ _ hx
      · exact ih _ x (Or.inr ⟨c, hc, hx⟩)

theorem mem_flattenGroupStep_mono {fss : List FollowSet} {fo : String}
    {y : Lookahead} {acc : List Lookahead} (h : y ∈ acc) :
    y ∈ flattenGroupStep fss acc fo := by
  unfold flattenGroupStep
  cases hf : fss.filter (fun fs => fs.follow == fo) with
  | nil => exact h
  | cons a t =>
    exact (mem_foldl_addLA
      (fun sp => if sp.length = 1 then Sum.inl sp.headI else Sum.inr sp)
      _ acc y).mpr (Or.inl h)

theorem mem_foldl_flattenGroupStep_mono {fss : List FollowSet} {y : Lookahead} :
    ∀ (l : List String) (acc : List Lookahead), y ∈ acc →
      y ∈ l.foldl (flattenGroupStep fss) acc := by
  intro l
  induction l with
  | nil => intro acc h; exact h
  | cons fo t ih => intro acc h; exact ih _ (mem_flattenGroupStep_mono h)

theorem dollar_mem_flattenGroupStep {fss : List FollowSet} {fs : FollowSet}
    (hfs : fs ∈ fss) (hco : ["$"] ∈ fs.completes) (acc : List Lookahead) :
    Sum.inl "$" ∈ flattenGroupStep fss acc fs.follow := by
  unfold flattenGroupStep
  have hmemf : fs ∈ fss.filter (fun x => x.follow == fs.follow) :=
    List.mem_filter.mpr ⟨hfs, by simp⟩
  cases hf : fss.filter (fun x => x.follow == fs.follow) with
  | nil => rw [hf] at hmemf; cases hmemf
  | cons a t =>
    rw [hf] at hmemf
    have hjoin : ["$"] ∈ (t.foldl FollowSet.upgrade a).completes := by
      rcases List.mem_cons.mp hmemf with rfl | hmem
      · exact upgrade_completes_mem t _ _ (Or.inl hco)
      · exact upgrade_completes_mem t _ _ (Or.inr ⟨fs, hmem, hco⟩)
    refine (mem_foldl_addLA
      (fun sp => if sp.length = 1 then Sum.inl sp.headI else Sum.inr sp)
      _ acc _).mpr (Or.inr ⟨["$"], List.mem_append_right _ hjoin, by simp⟩)

theorem dollar_mem_followFlattenOne {fss : List FollowSet} {fs : FollowSet}
    (hfs : fs ∈ fss) (hco : ["$"] ∈ fs.completes) :
    Sum.inl "$" ∈ followFlattenOne fss := by
  unfold followFlattenOne
  have hfo : fs.follow ∈ dedup (fss.map (·.follow)) :=
    mem_dedup.mpr (List.mem_map.mpr ⟨fs, hfs, rfl⟩)
  obtain ⟨l1, l2, hsplit⟩ := List.append_of_mem hfo
  rw [hsplit, List.foldl_append, List.foldl_cons]
  exact mem_foldl_flattenGroupStep_mono l2 _
    (dollar_mem_flattenGroupStep hfs hco _)

theorem followFlattenOne_ne_empty {fss : List FollowSet} {fs : FollowSet}
    (hfs : fs ∈ fss) (hco : ["$"] ∈ fs.completes) :
    (followFlattenOne fss).isEmpty = false := by
  have h := dollar_mem_followFlattenOne hfs hco
  cases hF : followFlattenOne fss with
  | nil => rw [hF] at h; cases h
  | cons a t => rfl

theorem foldl_flattenStep_acc :
    ∀ (F : FollowState) (acc : List (String × List Lookahead)),
      F.foldl flattenStep acc = acc ++ F.foldl flattenStep [] := by
  intro F
  induction F with
  | nil => intro acc; simp
  | cons p t ih =>
    intro acc
    rw [List.foldl_cons, List.foldl_cons, ih (flattenStep acc p),
      ih (flattenStep [] p)]
    unfold flattenStep
    split_ifs with hE
    · simp
    · simp

theorem lookup_append_keys_ne {α : Type} (a : String) :
    ∀ (xs ys : List (String × α)), (∀ p ∈ xs, p.1 ≠ a) →
      (xs ++ ys).lookup a = ys.lookup a := by
  intro xs
  induction xs with
  | nil => intro ys h; rfl
  | cons p t ih =>
    intro ys h
    obtain ⟨k, v⟩ := p
    have hk : k ≠ a := h (k, v) (List.mem_cons_self _ _)
    have hb : (a == k) = false := by
      cases hq : (a == k)
      · rfl
      · exact absurd (beq_iff_eq.mp hq) (fun he => hk he.symm)
    simp only [List.cons_append, List.lookup, hb]
    exact ih ys (fun q hq => h q (List.mem_cons_of_mem _ hq))

theorem foldl_flattenStep_lookup {start : String} {fss : List FollowSet}
    (hne : (followFlattenOne fss).isEmpty = false) :
    ∀ F : FollowState, F.lookup start = some fss →
      (F.foldl flattenStep []).lookup start = some (followFlattenOne fss) := by
  intro F
  induction F with
  | nil => intro h; cases h
  | cons p t ih =>
    obtain ⟨s0, l0⟩ := p
    intro hlook
    rw [List.foldl_cons, foldl_flattenStep_acc]
    by_cases h0 : start = s0
    · subst h0
      have hl : l0 = fss := by simpa [List.lookup] using hlook
      subst hl
      simp [flattenStep, hne, List.lookup]
    · have hne0 : (start == s0) = false := by
        cases hq : (start == s0)
        · rfl
        · exact absurd (beq_iff_eq.mp hq) h0
      have hlt : t.lookup start = some fss := by
        simpa [List.lookup, hne0] using hlook
      rw [lookup_append_keys_ne]
      · exact ih hlt
      · intro q hq
        unfold flattenStep at hq
        split_ifs at hq with hE
        · cases hq
        · simp only [List.nil_append, List.mem_singleton] at hq
          rw [hq]
          exact fun he => h0 he.symm

/-- C6: for every grammar and every k ≥ 1, whenever `kfollow` returns a
mapping, the start symbol has an entry and the end-of-input sentinel `$`
is a member of it: the seeded complete FollowSet `{⟨$⟩}` at the start
symbol survives the per-round appends and the fixpoint (appends only grow
`completes` and never change `follow` or `is_complete`) and is emitted by
the flattening as the bare lookahead `$`. -/
theorem c6_dollar_seed_in_follow_start (g : List Production) (start : String)
    (k fuelFi : Nat) (hk : 1 ≤ k) (m : List (String × List Lookahead))
    (h : kfollowModel g start k fuelFi = .ok m) :
    ∃ las, m.lookup start = some las ∧ Sum.inl "$" ∈ las := by
  unfold kfollowModel at h
  by_cases hcon : (!(keysOf g).contains start) = true
  · rw [if_pos hcon] at h
    exact Except.noConfusion h
  · rw [if_neg hcon] at h
    have hcont : (keysOf g).contains start = true := by
      cases hc : (keysOf g).contains start
      · exact absurd (by rw [hc]; rfl) hcon
      · rfl
    have hst : start ∈ keysOf g := mem_of_contains hcont
    split at h
    · exact Except.noConfusion h
    · rename_i Ffinal hfold
      injection h with h
      subst h
      have hInv : dollarInv start Ffinal :=
        foldlM_except_inv (dollarInv start) (kfollowStepI g fuelFi (keysOf g))
          (fun s a s2 hPs hs => dollarInv_kfollowStepI (keysOf g) s a s2 hPs hs)
          (List.range k) (kfollowInit g start) Ffinal
          (dollarInv_kfollowInit g start hst) hfold
      obtain ⟨fss, hlook, fs, hfs, -, -, hdo⟩ := hInv
      refine ⟨followFlattenOne fss, ?_, dollar_mem_followFlattenOne hfs hdo⟩
      exact foldl_flattenStep_lookup (followFlattenOne_ne_empty hfs hdo) Ffinal hlook

/-- Witness for C6: on the grammar `<S> ::= "a"` with k = 1, `kfollow`
returns a mapping whose start entry holds the bare `$` lookahead. -/
theorem c6_witness :
    1 ≤ 1 ∧ ∃ las,
      (([("S", [Sum.inl "$"])] : List (String × List Lookahead)).lookup "S")
          = some las
        ∧ Sum.inl "$" ∈ las :=
  ⟨Nat.le_refl 1,
    c6_dollar_seed_in_follow_start gTriv "S" 1 30 (Nat.le_refl 1)
      [("S", [Sum.inl "$"])] (by decide)⟩

/-! ### C2 and C3: the `generate_ktable` assert, writes and overwrites -/

theorem lookup_cellSet_isSome (tbl : Table) (n : String) (t : Lookahead)
    (p : Production) (n' : String) :
    ((cellSet tbl n t p).lookup n').isSome = (tbl.lookup n').isSome := by
  unfold cellSet
  by_cases h : n' = n
  · subst h
    rw [lookup_updateKey_self]
    cases tbl.lookup n' <;> rfl
  · rw [lookup_updateKey_ne _ _ _ _ h]

theorem updateRow_keys (row : Row) (t : Lookahead) (p : Production) :
    (updateRow row t p).map Prod.fst
      = if t ∈ row.map Prod.fst then row.map Prod.fst
        else row.map Prod.fst ++ [t] := by
  induction row with
  | nil => simp [updateRow]
  | cons c rest ih =>
    obtain ⟨t0, p0⟩ := c
    by_cases h : t0 = t
    · subst h
      simp [updateRow]
    · have hne : ¬(t = t0) := fun hh => h hh.symm
      simp only [updateRow, if_neg h, List.map_cons, ih]
      by_cases hmem : t ∈ rest.map Prod.fst
      · simp [hmem, hne]
      · simp [hmem, hne]

theorem updateRow_keys_nodup (row : Row) (t : Lookahead) (p : Production)
    (h : (row.map Prod.fst).Nodup) :
    ((updateRow row t p).map Prod.fst).Nodup := by
  rw [updateRow_keys]
  split_ifs with hmem
  · exact h
  · simp only [List.nodup_append, List.nodup_singleton]
    exact ⟨h, by simp, by simpa [List.disjoint_singleton] using hmem⟩

theorem mem_updateKey {α : Type} (F : List (String × α)) (s : String)
    (f : α → α) (r : String × α) (h : r ∈ updateKey F s f) :
    r ∈ F ∨ ∃ v, (s, v) ∈ F ∧ r = (s, f v) := by
  induction F with
  | nil => simp [updateKey] at h
  | cons p rest ih =>
    obtain ⟨s0, v0⟩ := p
    by_cases h0 : s0 = s
    · subst h0
      simp only [updateKey, if_pos rfl] at h
      rcases h with _ | ⟨_, hmem⟩
      · exact Or.inr ⟨v0, List.mem_cons_self _ _, rfl⟩
      · exact Or.inl (List.mem_cons_of_mem _ hmem)
    · simp only [updateKey, if_neg h0] at h
      rcases h with _ | ⟨_, hmem⟩
      · exact Or.inl (List.mem_cons_self _ _)
      · rcases ih hmem with h' | ⟨v, hv, hr⟩
        · exact Or.inl (List.mem_cons_of_mem _ h')
        · exact Or.inr ⟨v, List.mem_cons_of_mem _ hv, hr⟩

theorem cellSet_rowsNodup (tbl : Table) (n : String) (t : Lookahead)
    (p : Production) (h : rowsNodup tbl) : rowsNodup (cellSet tbl n t p) := by
  intro r hr
  rcases mem_updateKey tbl n _ r hr with hmem | ⟨v, hv, rfl⟩
  · exact h r hmem
  · exact updateRow_keys_nodup v t p (h (n, v) hv)

theorem processEpsTerms_error (nonterm : String) (production : Production) :
    ∀ (ts : List Lookahead) (st : Table × List WriteEvent) (e : KtabError),
      processEpsTerms nonterm production ts st = .error e → ∃ m, e = .keyErr m := by
  intro ts
  induction ts with
  | nil => intro st e h; simp [processEpsTerms] at h
  | cons t2 ts ih =>
    intro st e h
    simp only [processEpsTerms] at h
    cases hrow : st.1.lookup nonterm with
    | none =>
      rw [hrow] at h
      simp only [Except.error.injEq] at h
      exact ⟨_, h.symm⟩
    | some row =>
      rw [hrow] at h
      dsimp only at h
      split_ifs at h with hv
      · exact ih _ e h
      · exact ih _ e h

theorem processEpsTerms_ok (nonterm : String) (production : Production) :
    ∀ (ts : List Lookahead) (st : Table × List WriteEvent),
      (st.1.lookup nonterm).isSome = true →
      ∃ st', processEpsTerms nonterm production ts st = .ok st'
        ∧ (∀ n', ((st'.1.lookup n').isSome = (st.1.lookup n').isSome))
        ∧ (rowsNodup st.1 → rowsNodup st'.1)
        ∧ ∃ news, st'.2 = st.2 ++ news ∧ ∀ e ∈ news, e.viaEps = true := by
  intro ts
  induction ts with
  | nil =>
    intro st h
    exact ⟨st, rfl, fun _ => rfl, id, [], by simp, by simp⟩
  | cons t2 ts ih =>
    intro st h
    obtain ⟨row, hrow⟩ := Option.isSome_iff_exists.mp h
    simp only [processEpsTerms, hrow]
    split_ifs with hv
    · have h2 : ((cellSet st.1 nonterm t2 production).lookup nonterm).isSome = true := by
        rw [lookup_cellSet_isSome]
        exact h
      obtain ⟨st', hst', hkeys, hnd, news, hnews, heps⟩ := ih
        (cellSet st.1 nonterm t2 production,
          st.2 ++ [⟨nonterm, t2, none, production, true⟩]) h2
      refine ⟨st', hst', ?_, ?_, ⟨nonterm, t2, none, production, true⟩ :: news, ?_, ?_⟩
      · intro n'
        rw [hkeys n']
        exact lookup_cellSet_isSome ..
      · intro hrn
        exact hnd (cellSet_rowsNodup _ _ _ _ hrn)
      · rw [hnews]
        simp
      · rintro e (_ | ⟨_, he⟩)
        · rfl
        · exact heps e he
    · exact ih st h

theorem processPair_ambiguous (g : List Production) (fuelM : Nat)
    (follow : List (String × List Lookahead)) (st : Table × List WriteEvent)
    (n : String) (t : Lookahead) (N : String) (T : Lookahead)
    (ps : List Production)
    (h : processPair g fuelM follow st n t = .error (.ambiguous N T ps)) :
    N = n ∧ T = t ∧ ps = prodsLeadingTo g fuelM n t ∧ ps.length ≠ 1 := by
  unfold processPair at h
  split_ifs at h with h1 h2
  · cases hf : follow.lookup n with
    | none => rw [hf] at h; simp at h
    | some f2s =>
      rw [hf] at h
      obtain ⟨m, hm⟩ := processEpsTerms_error n _ f2s st _ h
      simp at hm
  · cases hrow : st.1.lookup n with
    | none => rw [hrow] at h; simp at h
    | some row => rw [hrow] at h; simp at h
  · simp only [Except.error.injEq, KtabError.ambiguous.injEq] at h
    obtain ⟨hN, hT, hps⟩ := h
    subst hps
    exact ⟨hN.symm, hT.symm, rfl, h1⟩

theorem processPair_ok (g : List Production) (fuelM : Nat)
    (follow : List (String × List Lookahead)) (st : Table × List WriteEvent)
    (n : String) (t : Lookahead)
    (hc : (prodsLeadingTo g fuelM n t).length = 1)
    (hn : (st.1.lookup n).isSome = true)
    (hf : t = Sum.inl "ε" → (follow.lookup n).isSome = true) :
    ∃ st', processPair g fuelM follow st n t = .ok st'
      ∧ (∀ n', (st'.1.lookup n').isSome = (st.1.lookup n').isSome)
      ∧ (rowsNodup st.1 → rowsNodup st'.1)
      ∧ ∃ news, st'.2 = st.2 ++ news
        ∧ (nonEpsKeys news = [] ∨ nonEpsKeys news = [(n, t)]) := by
  unfold processPair
  rw [if_pos hc]
  by_cases ht : t = Sum.inl "ε"
  · rw [if_pos ht]
    obtain ⟨f2s, hf2s⟩ := Option.isSome_iff_exists.mp (hf ht)
    rw [hf2s]
    obtain ⟨st', hst', hkeys, hnd, news, hnews, heps⟩ :=
      processEpsTerms_ok n (prodsLeadingTo g fuelM n t).headI f2s st hn
    refine ⟨st', hst', hkeys, hnd, news, hnews, Or.inl ?_⟩
    unfold nonEpsKeys
    rw [List.filter_eq_nil_iff.mpr]
    · rfl
    · intro e he
      simp [heps e he]
  · rw [if_neg ht]
    obtain ⟨row, hrow⟩ := Option.isSome_iff_exists.mp hn
    rw [hrow]
    refine ⟨_, rfl, ?_, ?_, [⟨n, t, row.lookup t,
      (prodsLeadingTo g fuelM n t).headI, false⟩], rfl, Or.inr rfl⟩
    · intro n'
      exact lookup_cellSet_isSome ..
    · intro hrn
      exact cellSet_rowsNodup _ _ _ _ hrn

theorem nonEpsKeys_append (a b : List WriteEvent) :
    nonEpsKeys (a ++ b) = nonEpsKeys a ++ nonEpsKeys b := by
  simp [nonEpsKeys, List.filter_append]

theorem processEpsTerms_ok_shape (nonterm : String) (production : Production) :
    ∀ (ts : List Lookahead) (st st' : Table × List WriteEvent),
      processEpsTerms nonterm production ts st = .ok st' →
      (∀ n', (st'.1.lookup n').isSome = (st.1.lookup n').isSome)
      ∧ (rowsNodup st.1 → rowsNodup st'.1)
      ∧ ∃ news, st'.2 = st.2 ++ news ∧ ∀ e ∈ news, e.viaEps = true := by
  intro ts
  induction ts with
  | nil =>
    intro st st' h
    simp only [processEpsTerms, Except.ok.injEq] at h
    subst h
    exact ⟨fun _ => rfl, id, [], by simp, by simp⟩
  | cons t2 ts ih =>
    intro st st' h
    simp only [processEpsTerms] at h
    cases hrow : st.1.lookup nonterm with
    | none => rw [hrow] at h; simp at h
    | some row =>
      rw [hrow] at h
      dsimp only at h
      split_ifs at h with hv
      · obtain ⟨hkeys, hnd, news, hnews, heps⟩ := ih _ _ h
        refine ⟨?_, ?_, ⟨nonterm, t2, none, production, true⟩ :: news, ?_, ?_⟩
        · intro n'
          rw [hkeys n']
          exact lookup_cellSet_isSome ..
        · intro hrn
          exact hnd (cellSet_rowsNodup _ _ _ _ hrn)
        · rw [hnews]
          simp
        · rintro e (_ | ⟨_, he⟩)
          · rfl
          · exact heps e he
      · exact ih _ _ h

theorem processPair_ok_shape (g : List Production) (fuelM : Nat)
    (follow : List (String × List Lookahead)) (st : Table × List WriteEvent)
    (n : String) (t : Lookahead) (st' : Table × List WriteEvent)
    (h : processPair g fuelM follow st n t = .ok st') :
    (∀ n', (st'.1.lookup n').isSome = (st.1.lookup n').isSome)
    ∧ (rowsNodup st.1 → rowsNodup st'.1)
    ∧ ∃ news, st'.2 = st.2 ++ news
      ∧ (nonEpsKeys news = [] ∨ nonEpsKeys news = [(n, t)]) := by
  unfold processPair at h
  split_ifs at h with h1 h2
  · cases hf : follow.lookup n with
    | none => rw [hf] at h; simp at h
    | some f2s =>
      rw [hf] at h
      obtain ⟨hkeys, hnd, news, hnews, heps⟩ :=
        processEpsTerms_ok_shape n _ f2s st st' h
      refine ⟨hkeys, hnd, news, hnews, Or.inl ?_⟩
      unfold nonEpsKeys
      rw [List.filter_eq_nil_iff.mpr]
      · rfl
      · intro e he
        simp [heps e he]
  · cases hrow : st.1.lookup n with
    | none => rw [hrow] at h; simp at h
    | some row =>
      rw [hrow] at h
      dsimp only at h
      simp only [Except.ok.injEq] at h
      subst h
      refine ⟨?_, ?_, [⟨n, t, row.lookup t,
        (prodsLeadingTo g fuelM n t).headI, false⟩], rfl, Or.inr rfl⟩
      · intro n'
        exact lookup_cellSet_isSome ..
      · intro hrn
        exact cellSet_rowsNodup _ _ _ _ hrn

theorem processPair_bad (g : List Production) (fuelM : Nat)
    (follow : List (String × List Lookahead)) (st : Table × List WriteEvent)
    (n : String) (t : Lookahead)
    (hc : (prodsLeadingTo g fuelM n t).length ≠ 1) :
    processPair g fuelM follow st n t
      = .error (.ambiguous n t (prodsLeadingTo g fuelM n t)) := by
  unfold processPair
  rw [if_neg hc]

theorem processTerms_ambiguous (g : List Production) (fuelM : Nat)
    (follow : List (String × List Lookahead)) (n : String) :
    ∀ (ts : List Lookahead) (st : Table × List WriteEvent) (N : String)
      (T : Lookahead) (ps : List Production),
      processTerms g fuelM follow n ts st = .error (.ambiguous N T ps) →
      N = n ∧ T ∈ ts ∧ ps = prodsLeadingTo g fuelM n T ∧ ps.length ≠ 1 := by
  intro ts
  induction ts with
  | nil => intro st N T ps h; simp [processTerms] at h
  | cons t ts ih =>
    intro st N T ps h
    simp only [processTerms] at h
    cases hp : processPair g fuelM follow st n t with
    | error e =>
      rw [hp] at h
      dsimp only at h
      simp only [Except.error.injEq] at h
      subst h
      obtain ⟨hN, hT, hps, hlen⟩ := processPair_ambiguous g fuelM follow st n t N T ps hp
      subst hT
      exact ⟨hN, List.mem_cons_self _ _, hps, hlen⟩
    | ok st2 =>
      rw [hp] at h
      dsimp only at h
      obtain ⟨hN, hT, hps, hlen⟩ := ih st2 N T ps h
      exact ⟨hN, List.mem_cons_of_mem _ hT, hps, hlen⟩

theorem processTerms_ok_shape (g : List Production) (fuelM : Nat)
    (follow : List (String × List Lookahead)) (n : String) :
    ∀ (ts : List Lookahead) (st st' : Table × List WriteEvent),
      processTerms g fuelM follow n ts st = .ok st' →
      (∀ n', (st'.1.lookup n').isSome = (st.1.lookup n').isSome)
      ∧ (rowsNodup st.1 → rowsNodup st'.1)
      ∧ ∃ news, st'.2 = st.2 ++ news
        ∧ (∀ kk ∈ nonEpsKeys news, kk.1 = n ∧ kk.2 ∈ ts)
        ∧ (ts.Nodup → (nonEpsKeys news).Nodup) := by
  intro ts
  induction ts with
  | nil =>
    intro st st' h
    simp only [processTerms, Except.ok.injEq] at h
    subst h
    exact ⟨fun _ => rfl, id, [], by simp, by simp [nonEpsKeys], by simp [nonEpsKeys]⟩
  | cons t ts ih =>
    intro st st' h
    simp only [processTerms] at h
    cases hp : processPair g fuelM follow st n t with
    | error e => rw [hp] at h; simp at h
    | ok st2 =>
      rw [hp] at h
      dsimp only at h
      obtain ⟨hkeys1, hnd1, news1, hnews1, hone⟩ :=
        processPair_ok_shape g fuelM follow st n t st2 hp
      obtain ⟨hkeys2, hnd2, news2, hnews2, hkk2, hnodup2⟩ := ih st2 st' h
      refine ⟨fun n' => (hkeys2 n').trans (hkeys1 n'), fun hrn => hnd2 (hnd1 hrn),
        news1 ++ news2, ?_, ?_, ?_⟩
      · rw [hnews2, hnews1, List.append_assoc]
      · intro kk hkk
        rw [nonEpsKeys_append, List.mem_append] at hkk
        rcases hkk with hkk | hkk
        · rcases hone with hone | hone
          · rw [hone] at hkk; simp at hkk
          · rw [hone] at hkk
            simp only [List.mem_singleton] at hkk
            subst hkk
            exact ⟨rfl, List.mem_cons_self _ _⟩
        · obtain ⟨h1, h2⟩ := hkk2 kk hkk
          exact ⟨h1, List.mem_cons_of_mem _ h2⟩
      · intro hnd
        rw [nonEpsKeys_append]
        have hts := (List.nodup_cons.mp hnd).2
        have htni := (List.nodup_cons.mp hnd).1
        rw [List.nodup_append]
        refine ⟨?_, hnodup2 hts, ?_⟩
        · rcases hone with hone | hone <;> rw [hone] <;> simp
        · intro kk hkk1 hkk2'
          rcases hone with hone | hone
          · rw [hone] at hkk1; simp at hkk1
          · rw [hone] at hkk1
            simp only [List.mem_singleton] at hkk1
            subst hkk1
            exact htni ((hkk2 _ hkk2').2)

theorem processTerms_ok (g : List Production) (fuelM : Nat)
    (follow : List (String × List Lookahead)) (n : String) :
    ∀ (ts : List Lookahead) (st : Table × List WriteEvent),
      (∀ t ∈ ts, (prodsLeadingTo g fuelM n t).length = 1) →
      (st.1.lookup n).isSome = true →
      (∀ t ∈ ts, t = Sum.inl "ε" → (follow.lookup n).isSome = true) →
      ∃ st', processTerms g fuelM follow n ts st = .ok st'
        ∧ (∀ n', (st'.1.lookup n').isSome = (st.1.lookup n').isSome) := by
  intro ts
  induction ts with
  | nil => intro st _ _ _; exact ⟨st, rfl, fun _ => rfl⟩
  | cons t ts ih =>
    intro st hc hn hf
    obtain ⟨st2, hst2, hkeys2, -, -⟩ :=
      processPair_ok g fuelM follow st n t (hc t (List.mem_cons_self _ _)) hn
        (hf t (List.mem_cons_self _ _))
    obtain ⟨st', hst', hkeys'⟩ := ih st2
      (fun t' ht' => hc t' (List.mem_cons_of_mem _ ht'))
      (by rw [hkeys2]; exact hn)
      (fun t' ht' => hf t' (List.mem_cons_of_mem _ ht'))
    refine ⟨st', ?_, fun n' => (hkeys' n').trans (hkeys2 n')⟩
    simp only [processTerms, hst2]
    exact hst'

theorem processTerms_bad (g : List Production) (fuelM : Nat)
    (follow : List (String × List Lookahead)) (n : String) :
    ∀ (ts : List Lookahead) (st : Table × List WriteEvent),
      (st.1.lookup n).isSome = true →
      (∀ t ∈ ts, t = Sum.inl "ε" → (follow.lookup n).isSome = true) →
      (∃ t ∈ ts, (prodsLeadingTo g fuelM n t).length ≠ 1) →
      ∃ T ps, processTerms g fuelM follow n ts st = .error (.ambiguous n T ps) := by
  intro ts
  induction ts with
  | nil => intro st _ _ hbad; simp at hbad
  | cons t ts ih =>
    intro st hn hf hbad
    by_cases hct : (prodsLeadingTo g fuelM n t).length = 1
    · obtain ⟨st2, hst2, hkeys2, -, -⟩ :=
        processPair_ok g fuelM follow st n t hct hn (hf t (List.mem_cons_self _ _))
      have hbad2 : ∃ t' ∈ ts, (prodsLeadingTo g fuelM n t').length ≠ 1 := by
        obtain ⟨t', ht', hbt⟩ := hbad
        rcases List.mem_cons.mp ht' with rfl | ht'
        · exact absurd hct hbt
        · exact ⟨t', ht', hbt⟩
      obtain ⟨T, ps, hTps⟩ := ih st2 (by rw [hkeys2]; exact hn)
        (fun t' ht' => hf t' (List.mem_cons_of_mem _ ht')) hbad2
      refine ⟨T, ps, ?_⟩
      simp only [processTerms, hst2]
      exact hTps
    · refine ⟨t, prodsLeadingTo g fuelM n t, ?_⟩
      simp only [processTerms, processPair_bad g fuelM follow st n t hct]

theorem processFirst_ambiguous (g : List Production) (fuelM : Nat)
    (follow : List (String × List Lookahead)) :
    ∀ (pairs : List (String × List Lookahead)) (st : Table × List WriteEvent)
      (N : String) (T : Lookahead) (ps : List Production),
      processFirst g fuelM follow pairs st = .error (.ambiguous N T ps) →
      ∃ p ∈ pairs, N = p.1 ∧ T ∈ p.2 ∧ ps = prodsLeadingTo g fuelM p.1 T
        ∧ ps.length ≠ 1 := by
  intro pairs
  induction pairs with
  | nil => intro st N T ps h; simp [processFirst] at h
  | cons p rest ih =>
    intro st N T ps h
    simp only [processFirst] at h
    cases hp : processTerms g fuelM follow p.1 p.2 st with
    | error e =>
      rw [hp] at h
      dsimp only at h
      simp only [Except.error.injEq] at h
      subst h
      obtain ⟨hN, hT, hps, hlen⟩ := processTerms_ambiguous g fuelM follow p.1 p.2 st N T ps hp
      exact ⟨p, List.mem_cons_self _ _, hN, hT, hN ▸ hps, hlen⟩
    | ok st2 =>
      rw [hp] at h
      dsimp only at h
      obtain ⟨p', hp', hN, hT, hps, hlen⟩ := ih st2 N T ps h
      exact ⟨p', List.mem_cons_of_mem _ hp', hN, hT, hps, hlen⟩

theorem processFirst_ok_shape (g : List Production) (fuelM : Nat)
    (follow : List (String × List Lookahead)) :
    ∀ (pairs : List (String × List Lookahead)) (st st' : Table × List WriteEvent),
      processFirst g fuelM follow pairs st = .ok st' →
      (∀ n', (st'.1.lookup n').isSome = (st.1.lookup n').isSome)
      ∧ (rowsNodup st.1 → rowsNodup st'.1)
      ∧ ∃ news, st'.2 = st.2 ++ news
        ∧ (∀ kk ∈ nonEpsKeys news, ∃ p ∈ pairs, kk.1 = p.1 ∧ kk.2 ∈ p.2)
        ∧ ((pairs.map Prod.fst).Nodup → (∀ p ∈ pairs, p.2.Nodup) →
            (nonEpsKeys news).Nodup) := by
  intro pairs
  induction pairs with
  | nil =>
    intro st st' h
    simp only [processFirst, Except.ok.injEq] at h
    subst h
    exact ⟨fun _ => rfl, id, [], by simp, by simp [nonEpsKeys], by simp [nonEpsKeys]⟩
  | cons p rest ih =>
    intro st st' h
    simp only [processFirst] at h
    cases hp : processTerms g fuelM follow p.1 p.2 st with
    | error e => rw [hp] at h; simp at h
    | ok st2 =>
      rw [hp] at h
      dsimp only at h
      obtain ⟨hkeys1, hnd1, news1, hnews1, hkk1, hnodup1⟩ :=
        processTerms_ok_shape g fuelM follow p.1 p.2 st st2 hp
      obtain ⟨hkeys2, hnd2, news2, hnews2, hkk2, hnodup2⟩ := ih st2 st' h
      refine ⟨fun n' => (hkeys2 n').trans (hkeys1 n'), fun hrn => hnd2 (hnd1 hrn),
        news1 ++ news2, ?_, ?_, ?_⟩
      · rw [hnews2, hnews1, List.append_assoc]
      · intro kk hkk
        rw [nonEpsKeys_append, List.mem_append] at hkk
        rcases hkk with hkk | hkk
        · obtain ⟨h1, h2⟩ := hkk1 kk hkk
          exact ⟨p, List.mem_cons_self _ _, h1, h2⟩
        · obtain ⟨p', hp', h1, h2⟩ := hkk2 kk hkk
          exact ⟨p', List.mem_cons_of_mem _ hp', h1, h2⟩
      · intro hnd hterms
        rw [nonEpsKeys_append, List.nodup_append]
        have hnd' : (p.1 :: rest.map Prod.fst).Nodup := by simpa using hnd
        have hfst := List.nodup_cons.mp hnd' 
        refine ⟨hnodup1 (hterms p (List.mem_cons_self _ _)), ?_, ?_⟩
        · exact hnodup2 hfst.2 (fun p' hp' => hterms p' (List.mem_cons_of_mem _ hp'))
        · intro kk hkkA hkkB
          obtain ⟨h1, -⟩ := hkk1 kk hkkA
          obtain ⟨p', hp', h1', -⟩ := hkk2 kk hkkB
          apply hfst.1
          rw [← h1, h1']
          exact List.mem_map_of_mem Prod.fst hp'

theorem processFirst_bad (g : List Production) (fuelM : Nat)
    (follow : List (String × List Lookahead)) :
    ∀ (pairs : List (String × List Lookahead)) (st : Table × List WriteEvent),
      (∀ p ∈ pairs, (st.1.lookup p.1).isSome = true) →
      (∀ p ∈ pairs, Sum.inl "ε" ∈ p.2 → (follow.lookup p.1).isSome = true) →
      (∃ p ∈ pairs, ∃ t ∈ p.2, (prodsLeadingTo g fuelM p.1 t).length ≠ 1) →
      ∃ N T ps, processFirst g fuelM follow pairs st = .error (.ambiguous N T ps) := by
  intro pairs
  induction pairs with
  | nil => intro st _ _ hbad; simp at hbad
  | cons p rest ih =>
    intro st hn hf hbad
    by_cases hbp : ∃ t ∈ p.2, (prodsLeadingTo g fuelM p.1 t).length ≠ 1
    · obtain ⟨T, ps, hTps⟩ := processTerms_bad g fuelM follow p.1 p.2 st
        (hn p (List.mem_cons_self _ _))
        (fun t ht he => hf p (List.mem_cons_self _ _) (he ▸ ht)) hbp
      refine ⟨p.1, T, ps, ?_⟩
      simp only [processFirst, hTps]
    · push_neg at hbp
      obtain ⟨st2, hst2, hkeys2⟩ := processTerms_ok g fuelM follow p.1 p.2 st
        hbp (hn p (List.mem_cons_self _ _))
        (fun t ht he => hf p (List.mem_cons_self _ _) (he ▸ ht))
      have hbad2 : ∃ p' ∈ rest, ∃ t ∈ p'.2, (prodsLeadingTo g fuelM p'.1 t).length ≠ 1 := by
        obtain ⟨p', hp', t, ht, hbt⟩ := hbad
        rcases List.mem_cons.mp hp' with rfl | hp'
        · exact absurd (hbp t ht) hbt
        · exact ⟨p', hp', t, ht, hbt⟩
      obtain ⟨N, T, ps, hNTps⟩ := ih st2
        (fun p' hp' => by rw [hkeys2]; exact hn p' (List.mem_cons_of_mem _ hp'))
        (fun p' hp' => hf p' (List.mem_cons_of_mem _ hp')) hbad2
      refine ⟨N, T, ps, ?_⟩
      simp only [processFirst, hst2]
      exact hNTps

/-- C2 (amended): under the no-KeyError side conditions (every firstset
nonterminal is a table key; every nonterminal whose firstset contains ε has
a follow entry), `generate_ktable` fails with the ambiguity assert **iff
some (N, t) of the firstset has a candidate count different from 1** — more
than one candidate, or none at all; the raised error names the offending
nonterminal, lookahead and the exact candidate list of
`get_production_leading_to_terminal`; and every row of a successfully
produced table binds each lookahead to exactly one production. -/
theorem c2_ktable_assert_characterization (g : List Production) (fuelM : Nat)
    (first follow : List (String × List Lookahead)) (k : Nat)
    (H1 : ∀ p ∈ first, p.1 ∈ keysOf g)
    (H2 : ∀ p ∈ first, Sum.inl "ε" ∈ p.2 → (follow.lookup p.1).isSome = true) :
    ((∃ N T ps, generateKtableEvents g fuelM first follow k
        = .error (.ambiguous N T ps))
      ↔ ∃ p ∈ first, ∃ t ∈ p.2, (prodsLeadingTo g fuelM p.1 t).length ≠ 1)
    ∧ (∀ N T ps, generateKtableEvents g fuelM first follow k
        = .error (.ambiguous N T ps) →
        ps = prodsLeadingTo g fuelM N T ∧ ps.length ≠ 1
          ∧ ∃ p ∈ first, N = p.1 ∧ T ∈ p.2)
    ∧ (∀ st, generateKtableEvents g fuelM first follow k = .ok st →
        ∀ r ∈ st.1, ((r.2.map Prod.fst) : List Lookahead).Nodup) := by
  refine ⟨⟨?_, ?_⟩, ?_, ?_⟩
  · rintro ⟨N, T, ps, h⟩
    obtain ⟨p, hp, hN, hT, hps, hlen⟩ :=
      processFirst_ambiguous g fuelM follow first _ N T ps h
    refine ⟨p, hp, T, hT, ?_⟩
    rw [← hps]
    exact hlen
  · intro hbad
    obtain ⟨N, T, ps, h⟩ := processFirst_bad g fuelM follow first
      ((keysOf g).map (fun n => (n, ([] : Row))), [])
      (fun p hp => by
        rw [show (List.lookup p.1 ((keysOf g).map (fun n => (n, ([] : Row)))))
            = some [] from lookup_map_const (keysOf g) [] p.1 (H1 p hp)]
        rfl)
      H2 hbad
    exact ⟨N, T, ps, h⟩
  · intro N T ps h
    obtain ⟨p, hp, hN, hT, hps, hlen⟩ :=
      processFirst_ambiguous g fuelM follow first _ N T ps h
    exact ⟨hN ▸ hps, hlen, p, hp, hN, hT⟩
  · intro st h r hr
    obtain ⟨-, hnd, -⟩ := processFirst_ok_shape g fuelM follow first _ st h
    refine hnd ?_ r hr
    intro r0 hr0
    obtain ⟨n, -, rfl⟩ := List.mem_map.mp hr0
    simp

/-- Witness for C2: the assert/count biconditional instantiated on the
pipeline of `<S> ::= <A>`, `<A> ::= "a" | ε` at k = 1. -/
theorem c2_witness :
    (∃ N T ps, generateKtableEvents gNull 50 (kfirstModel gNull 30 1)
        ((kfollowModel gNull "S" 1 30).toOption.getD []) 1
        = .error (.ambiguous N T ps))
      ↔ ∃ p ∈ kfirstModel gNull 30 1, ∃ t ∈ p.2,
          (prodsLeadingTo gNull 50 p.1 t).length ≠ 1 :=
  (c2_ktable_assert_characterization gNull 50 (kfirstModel gNull 30 1)
    ((kfollowModel gNull "S" 1 30).toOption.getD []) 1
    (by decide) (by decide)).1

/-- C2 counterexample: on `<S> ::= <A>`, `<A> ::= "a" | ε` the pipeline's
`generate_ktable` fails with the ambiguity assert naming `S`, `ε` and an
**empty** candidate list — although no (N, t) pair of the firstset has more
than one candidate.  The assert therefore does not fire "exactly when more
than one production is found": it also fires when none is. -/
theorem c2_counterexample_zero_candidates :
    generateKtable gNull 50 (kfirstModel gNull 30 1)
        ((kfollowModel gNull "S" 1 30).toOption.getD []) 1
      = .error (.ambiguous "S" (.inl "ε") [])
    ∧ ∀ p ∈ kfirstModel gNull 30 1, ∀ t ∈ p.2,
        (prodsLeadingTo gNull 50 p.1 t).length ≤ 1 := by
  constructor <;> decide

/-- C3 (amended): non-ε recordings never collide with each other — when the
first mapping has duplicate-free keys and term sets (Python dict/set
inputs), the `(N, t)` keys of the non-ε-branch writes of a successful
`generate_ktable` run are pairwise distinct, so no non-ε recording
overwrites a cell bound by an earlier **non-ε** recording.  (A non-ε
recording may well overwrite a cell bound by an earlier ε-branch recording
to a different production — the write is unguarded; see the
counterexample.) -/
theorem c3_non_eps_writes_unique (g : List Production) (fuelM : Nat)
    (first follow : List (String × List Lookahead)) (k : Nat)
    (hkeys : (first.map Prod.fst).Nodup)
    (hterms : ∀ p ∈ first, p.2.Nodup)
    (st : Table × List WriteEvent)
    (h : generateKtableEvents g fuelM first follow k = .ok st) :
    (nonEpsKeys st.2).Nodup := by
  obtain ⟨-, -, news, hnews, -, hnodup⟩ :=
    processFirst_ok_shape g fuelM follow first _ st h
  rw [hnews]
  simpa using hnodup hkeys hterms

/-- Witness for C3 on the conflict grammar's pipeline. -/
theorem c3_witness :
    ∃ st, generateKtableEvents gConflict 50 (kfirstModel gConflict 30 1)
        ((kfollowModel gConflict "S" 1 30).toOption.getD []) 1 = .ok st
      ∧ (nonEpsKeys st.2).Nodup := by
  refine ⟨_, rfl, ?_⟩
  exact c3_non_eps_writes_unique gConflict 50 (kfirstModel gConflict 30 1)
    ((kfollowModel gConflict "S" 1 30).toOption.getD []) 1
    (by decide) (by decide) _ rfl

/-- C3 counterexample: on `<S> ::= <A> "b" | ε`, `<A> ::= ε | "b"` (a
FIRST/FOLLOW conflict), the run of `generate_ktable` succeeds and its write
log contains a non-ε recording that replaces a cell already bound to a
**different** production: the ε-branch first binds `(A, "b")` to
`A ::= ε`, and the later non-ε recording overwrites it with `A ::= "b"`. -/
theorem c3_counterexample_eps_then_term_overwrite :
    ∃ st, generateKtableEvents gConflict 50 (kfirstModel gConflict 30 1)
        ((kfollowModel gConflict "S" 1 30).toOption.getD []) 1 = .ok st
      ∧ ∃ e ∈ st.2, e.viaEps = false ∧ ∃ p, e.prev = some p ∧ p ≠ e.new := by
  refine ⟨_, rfl, ?_⟩
  decide

/-! ### C5: classification of the permutation yields -/

theorem getLastD_mem {α : Type} (q : α) (qs : List α) (d : α) :
    (q :: qs).getLastD d ∈ q :: qs := by
  induction qs generalizing q with
  | nil => simp [List.getLastD]
  | cons q1 qs ih =>
    have : (q :: q1 :: qs).getLastD d = (q1 :: qs).getLastD d := by
      simp [List.getLastD]
    rw [this]
    exact List.mem_cons_of_mem q (ih q1)

theorem sum_append_single (p : List Int) (i : Int) :
    (p ++ [i]).foldl (· + ·) 0 = p.foldl (· + ·) 0 + i := by
  rw [List.foldl_append]
  rfl

theorem mem_intRange0 {i k : Int} : i ∈ intRange0 k ↔ 0 ≤ i ∧ i ≤ k := by
  simp only [intRange0, List.mem_map, List.mem_range]
  constructor
  · rintro ⟨j, hj, rfl⟩
    omega
  · rintro ⟨h0, hk⟩
    exact ⟨i.toNat, by omega, by omega⟩

theorem kfollowPermLoop_classified (g : List Production) (fuelFi : Nat)
    (pr : Production) (base : Nat) (k : Int) :
    ∀ (guard : Nat) (q : List (List Int)) (acc l : List FollowSet),
      (∀ p ∈ q, p.foldl (· + ·) 0 ≤ k) →
      (∀ fs ∈ acc, permClassified g fuelFi pr base k fs) →
      kfollowPermLoop g fuelFi pr base k guard q acc = .ok l →
      ∀ fs ∈ l, permClassified g fuelFi pr base k fs := by
  intro guard
  induction guard with
  | zero =>
    intro q acc l hq hacc h
    match q with
    | [] =>
      simp only [kfollowPermLoop, Except.ok.injEq] at h
      subst h
      exact hacc
    | q0 :: qs => simp [kfollowPermLoop] at h
  | succ guard ih =>
    intro q acc l hq hacc h
    match q with
    | [] =>
      simp only [kfollowPermLoop, Except.ok.injEq] at h
      subst h
      exact hacc
    | q0 :: qs =>
      rw [kfollowPermLoop_succ] at h
      simp only [permStep] at h
      have hpmem : (q0 :: qs).getLastD [] ∈ q0 :: qs := getLastD_mem q0 qs []
      have hps : ((q0 :: qs).getLastD []).foldl (· + ·) 0 ≤ k := hq _ hpmem
      have hsub : ∀ p ∈ (q0 :: qs).dropLast, p.foldl (· + ·) 0 ≤ k :=
        fun p hp => hq p ((List.dropLast_sublist (q0 :: qs)).subset hp)
      split_ifs at h with h1 h2
      · refine ih _ _ l hsub ?_ h
        intro fs hfs
        rcases List.mem_append.mp hfs with hfs | hfs
        · exact hacc fs hfs
        · rw [List.mem_singleton] at hfs
          subst hfs
          exact ⟨_, Or.inl ⟨h1, rfl⟩⟩
      · refine ih _ _ l hsub ?_ h
        intro fs hfs
        rcases List.mem_append.mp hfs with hfs | hfs
        · exact hacc fs hfs
        · rw [List.mem_singleton] at hfs
          subst hfs
          exact ⟨_, Or.inr ⟨lt_of_le_of_ne hps h1, h2, rfl⟩⟩
      · refine ih _ _ l ?_ hacc h
        intro p hp
        rcases List.mem_append.mp hp with hp | hp
        · exact hsub p hp
        · obtain ⟨i, hi, rfl⟩ := List.mem_map.mp hp
          have hik := mem_intRange0.mp hi
          rw [sum_append_single]
          omega

/-- C5: the yields of `_kfollow_permutations` are classified exactly as the
source's three branches do it.  When the target occurred at the rhs end
(`base = |rhs|`) the single yield is the partial FollowSet `{⟨⟩}` pointing
at the lhs.  Otherwise every yield comes from an enumerated length tuple
`p`: saturated tuples (Σp = k) give a complete FollowSet resolved with the
FIRST pull allowed at the last non-zero position, and assigned-but-short
tuples (Σp < k, every remaining symbol assigned a length) give a partial
FollowSet pointing at the lhs, resolved from exact-length derivations only
(no FIRST pull). -/
theorem c5_kfollow_permutations_classification (g : List Production)
    (fuelFi : Nat) (pr : Production) (base : Nat) (k : Int)
    (l : List FollowSet)
    (h : kfollowPermutations g fuelFi pr base k = .ok l) :
    (base = pr.2.length ∧ l = [FollowSet.mkPending [[]] pr.1 k])
    ∨ (base ≠ pr.2.length ∧ ∀ fs ∈ l, permClassified g fuelFi pr base k fs) := by
  by_cases hb : base = pr.2.length
  · left
    refine ⟨hb, ?_⟩
    rw [kfollowPermutations, if_pos hb] at h
    simpa using h.symm
  · right
    refine ⟨hb, ?_⟩
    rw [kfollowPermutations, if_neg hb] at h
    refine kfollowPermLoop_classified g fuelFi pr base k 500 _ [] l ?_ (by simp) h
    intro p hp
    obtain ⟨i, hi, rfl⟩ := List.mem_map.mp hp
    have hik := mem_intRange0.mp hi
    show [i].foldl (· + ·) 0 ≤ k
    simpa using hik.2

/-- Witness for C5 on the production `S ::= A "b"` of the conflict grammar
at `base = 1`, `k = 1`. -/
theorem c5_witness :
    ∃ l, kfollowPermutations gConflict 30 ("S", ["A", "\"b\""]) 1 1 = .ok l
      ∧ ((1 = (["A", "\"b\""] : List String).length
            ∧ l = [FollowSet.mkPending [[]] "S" 1])
        ∨ (1 ≠ (["A", "\"b\""] : List String).length
            ∧ ∀ fs ∈ l, permClassified gConflict 30 ("S", ["A", "\"b\""]) 1 1 fs)) := by
  refine ⟨_, rfl, ?_⟩
  exact c5_kfollow_permutations_classification gConflict 30
    ("S", ["A", "\"b\""]) 1 1 _ rfl

/-! ### C7: `_matches` has no search bound -/

theorem matchesQ_gLR_step (n i : Nat) :
    matchesQ gLR (n + 1) [("A" :: List.replicate i "\"a\"", ["\"a\""])]
      = matchesQ gLR n [("A" :: List.replicate (i + 1) "\"a\"", ["\"a\""])] := by
  have hA : is_nonterm "A" = true := by decide
  simp [matchesQ, peelTerminals, hA, prodsOf, gLR, is_epsilon, List.replicate_succ]

theorem matchesQ_gLR_none (n : Nat) :
    ∀ i, matchesQ gLR n [("A" :: List.replicate i "\"a\"", ["\"a\""])] = none := by
  induction n with
  | zero => intro i; rfl
  | succ n ih =>
    intro i
    rw [matchesQ_gLR_step]
    exact ih (i + 1)

/-! ### C1: determinism of `generate_parser` -/

theorem joinLines_cons_cons (x y : String) (l : List String) :
    joinLines (x :: y :: l) = x ++ "\n" ++ joinLines (y :: l) := rfl

theorem parserRestLines_cons (tbl : Table) (imports : Option String) (k : Nat)
    (start : String) :
    ∃ l, parserRestLines tbl imports k start = "" :: l :=
  ⟨_, rfl⟩

/-- The whole invocation-time dependence of `generate_parser` is the
timestamp interpolation of the head line: the output factors as the head
line prepended to a time-independent remainder. -/
theorem generateParser_factor (g : List Production) (start : String)
    (imports : Option String) (k fuelFi fuelM : Nat) (now : String) :
    generateParser g start imports k fuelFi fuelM now
      = (generateParserBody g start imports k fuelFi fuelM).map
          (fun b => "# Generated on " ++ now ++ "\n" ++ b) := by
  unfold generateParser generateParserBody
  rcases hfo : kfollowModel g start k fuelFi with e | follow
  · rfl
  · dsimp only
    rcases hkt : generateKtable g fuelM (kfirstModel g fuelFi k) follow k
      with e | tbl
    · rfl
    · dsimp only
      obtain ⟨l, hl⟩ := parserRestLines_cons tbl imports k start
      rw [hl]
      rfl

/-- C1 (amended): `generate_parser` is deterministic apart from the
timestamp: with the `datetime.datetime.now()` reading made an explicit
input, everything except the first emitted line is a function of the
grammar, imports and k alone — there is a time-independent remainder such
that every invocation returns exactly the timestamp head line prepended to
it. -/
theorem c1_time_dependence_confined_to_header (g : List Production)
    (start : String) (imports : Option String) (k fuelFi fuelM : Nat) :
    ∃ rest : Except String String, ∀ now : String,
      generateParser g start imports k fuelFi fuelM now
        = rest.map (fun b => "# Generated on " ++ now ++ "\n" ++ b) :=
  ⟨generateParserBody g start imports k fuelFi fuelM,
    fun now => generateParser_factor g start imports k fuelFi fuelM now⟩

/-- C1 counterexample: `generate_parser` is not a pure function of
`(grammar, imports, k)`: on `<S> ::= "a"` two invocations with identical
arguments whose clock readings differ return different source text, because
the first line interpolates `datetime.datetime.now()`. -/
theorem c1_counterexample_distinct_timestamps :
    generateParser gTriv "S" none 1 30 50 ""
      ≠ generateParser gTriv "S" none 1 30 50 "X" := by
  intro h
  rw [generateParser_factor, generateParser_factor] at h
  have hok : isOkE (generateParserBody gTriv "S" none 1 30 50) = true := by decide
  obtain ⟨b, hb⟩ : ∃ b, generateParserBody gTriv "S" none 1 30 50 = .ok b := by
    cases hq : generateParserBody gTriv "S" none 1 30 50 with
    | ok b => exact ⟨b, rfl⟩
    | error e => rw [hq] at hok; exact absurd hok (by simp [isOkE])
  rw [hb] at h
  simp only [Except.map, Except.ok.injEq] at h
  have hlen := congrArg String.length h
  simp only [String.length_append] at hlen
  have he : ("" : String).length = 0 := rfl
  have hx : ("X" : String).length = 1 := rfl
  rw [he, hx] at hlen
  omega

/-- C7 (code bug): `_matches` has no per-invocation search bound.  On the
left-recursive grammar `<A> ::= <A> "a"`, the query
`_matches(("A",), ("\"a\"",))` expands the queue forever: in the fuel-indexed
model of its loop, every fuel amount is exhausted without an answer, so the
source — which has no fuel — diverges. -/
theorem c7_matches_unbounded_divergence (n : Nat) :
    matchesF gLR n ["A"] ["\"a\""] = none := by
  have h := matchesQ_gLR_none n 0
  simpa [matchesF] using h

end ParserGen
